import Mathlib

/-!
Verification development for `dtree.py` (class `DTree`): an ID3-style decision-tree
learner over categorical records, with native-text export/import of the learned tree.

Modelling conventions (Python 2 semantics, shallow embedding):

* Python scalar values occurring in this program (record values, labels, dictionary
  keys) are `Scalar`: an int, a byte string, or `None`.
* The learned tree is exactly the Python object built by `_make_tree`: either a
  scalar (a leaf: a label, or `None` from an empty dataset) or a nested dictionary
  mapping the chosen attribute name to a dictionary from observed values to subtrees.
  That object language is `Lit`, a dictionary being an association list in insertion
  order; Python dictionary equality ignores order, and every theorem below only ever
  compares dictionaries of identical construction order, so list equality is faithful.
* A record is a string-keyed dictionary of scalars, `Record`.
* Functions that can raise in Python return `Option`, `Option.none` standing for a
  raised exception.
* Python 2 iterates `list(set(lst))` in an implementation-defined hash order; we model
  that deterministically by `List.dedup` (which keeps the last occurrence of each
  duplicated element). Any fixed choice is a refinement of the unspecified order.
* Floating-point entropies are modelled by real numbers. `_choose_attribute` only ever
  uses gains through order comparisons; every gain on a fixed dataset of size `n` has
  the exact form `(1/n) * logb 2 (num/den)` with natural `num`, `den` (proved below in
  `gain_eq_logb`), so the executable chooser compares the cross-multiplied integers,
  which is provably the same order as comparing the real gains (`gain_le_gain_iff`).
* Recursion of `_make_tree` is embedded with an explicit fuel argument; the wrapper
  `makeTree` supplies `attrs.length + 1`, and the theorem for claim C9 proves any
  larger fuel computes the same tree, i.e. the recursion depth is bounded by the
  number of attributes.
-/

/-- Python scalar values used by the program: ints, (byte) strings, and None. -/
inductive Scalar where
  | int : Int → Scalar
  | str : String → Scalar
  | none : Scalar
deriving DecidableEq

/-- Python literal structures: a scalar, or a dictionary with scalar keys, in
insertion order. The learned tree of `DTree` is such a structure, and so is the
result of `ast.literal_eval` on any text this program can produce. -/
inductive Lit where
  | scalar : Scalar → Lit
  | dict : List (Scalar × Lit) → Lit

/-- A training or query record: a Python dictionary from attribute names to values. -/
abbrev Record := List (String × Scalar)

/-- Python `record[attr]`. Training code always looks up attributes present in the
record (a missing key would raise `KeyError` in Python); the default value is never
exercised by any theorem below. -/
def rget (r : Record) (a : String) : Scalar :=
  (r.lookup a).getD Scalar.none

/-- Python `[record[attr] for record in data]`. -/
def valuesOf (data : List Record) (a : String) : List Scalar :=
  data.map (fun r => rget r a)

/-- Model of `DTree._majority_value`: count each distinct target value and keep the
first strictly-larger count, starting from `(0, None)`. Mirrors

  for val in list(set(lst)):
    if lst.count(val) > highest_freq: most_freq = val; highest_freq = lst.count(val)

CPython 2 iterates a `set` in hash-slot order; the model fixes the iteration
order to `List.dedup` of the value list. Conclusions that depend on this order
are drawn only at concrete inputs where the two orders are traced to coincide. -/
def majorityValue (data : List Record) (tgt : String) : Scalar :=
  let lst := valuesOf data tgt
  (lst.dedup.foldl
    (fun acc v => if acc.1 < lst.count v then (lst.count v, v) else acc)
    ((0 : ℕ), Scalar.none)).2

/-- Model of `DTree._get_values`: the distinct values of `attr` in the data,
`list(set([record[attr] for record in data]))`. -/
def getValues (data : List Record) (attr : String) : List Scalar :=
  (valuesOf data attr).dedup

/-- Model of `DTree._get_examples`: the records whose `attr` equals `value`.
The Python loop pops from the end of a copy of the list, so the matching records
come out in reverse order. -/
def getExamples (data : List Record) (attr : String) (value : Scalar) : List Record :=
  data.reverse.filter (fun r => rget r attr == value)

/-- Product of `count ^ count` over the distinct values of a list. `powProd lst`
is the exact denominator material of the entropy of `lst`: with `n = lst.length`,
the Shannon entropy of the value distribution of `lst` equals
`(1/n) * logb 2 (n^n / powProd lst)` (proved in `entropyList_eq_logb`). -/
def powProd (lst : List Scalar) : ℕ :=
  (lst.dedup.map (fun v => lst.count v ^ lst.count v)).prod

/-- Exact integer representation of the information gain of `attr` in `data` with
respect to `tgt`: the real gain computed by `DTree._gain` equals
`(1/n) * Real.logb 2 (num/den)` where `(num, den) = gainPair data attr tgt` and
`n = data.length` (proved in `gain_eq_logb`). Comparing gains on a fixed dataset is
therefore the same as comparing `num * den'` with `num' * den`. -/
def gainPair (data : List Record) (attr tgt : String) : ℕ × ℕ :=
  (data.length ^ data.length * ((valuesOf data attr).dedup.map (fun v =>
      powProd (valuesOf (data.filter (fun r => rget r attr == v)) tgt))).prod,
    powProd (valuesOf data tgt) * powProd (valuesOf data attr))

/-- Model of `DTree._choose_attribute`:

  best_gain = 0.0; best_attr = None
  for attr in attributes:
    gain = self._gain(data, attr, target_attr)
    if gain >= best_gain and attr != target_attr:
      best_gain = gain; best_attr = attr

The float state `best_gain` is carried as the exact pair `(num, den)` representing
the real value `(1/n) * logb 2 (num/den)`; it starts at `(1, 1)`, which represents
`0.0` exactly, and `gain >= best_gain` is the cross-multiplied comparison. -/
def chooseStep (data : List Record) (tgt : String)
    (best : (ℕ × ℕ) × Option String) (attr : String) : (ℕ × ℕ) × Option String :=
  if best.1.1 * (gainPair data attr tgt).2 ≤ (gainPair data attr tgt).1 * best.1.2
      ∧ attr ≠ tgt
  then (gainPair data attr tgt, some attr) else best

/-- The loop of `DTree._choose_attribute` as a fold of `chooseStep` starting from
`best_gain = 0.0` (the pair `(1, 1)`) and `best_attr = None`. -/
def chooseAttribute (data : List Record) (attrs : List String) (tgt : String) :
    Option String :=
  (attrs.foldl (chooseStep data tgt) (((1 : ℕ), (1 : ℕ)), Option.none)).2

/-- Model of `DTree._make_tree` with explicit recursion fuel (the Python recursion
consumes one attribute per level; `makeTree` supplies sufficient fuel and the C9
theorem shows any sufficient fuel agrees):

  values = [record[self.target_attr] for record in data]
  default = self._majority_value(data, target_attr)
  if not data or len(attributes) - 1 <= 0: return default
  elif values.count(values[0]) == len(values): return values[0]
  else:
    best = self._choose_attribute(data, attributes, target_attr)
    tree = {best: {}}
    for value in self._get_values(data, best):
      subtree = self._make_tree(self._get_examples(data, best, value),
                                [attr for attr in attributes if attr != best],
                                target_attr)
      tree[best][value] = subtree
  return tree

In every call the constructor argument `self.target_attr` and the parameter
`target_attr` are the same string, so a single `tgt` stands for both. A `none`
result models a raised exception (only reachable when `_choose_attribute` returns
`None` and Python would then raise `KeyError` on `record[None]`). -/
def makeTreeF : ℕ → List Record → List String → String → Option Lit
  | 0, _, _, _ => Option.none
  | fuel + 1, data, attrs, tgt =>
    let values := valuesOf data tgt
    let dflt := majorityValue data tgt
    if data = [] ∨ attrs.length ≤ 1 then some (.scalar dflt)
    else if values.count (values.headD Scalar.none) = values.length then
      some (.scalar (values.headD Scalar.none))
    else
      match chooseAttribute data attrs tgt with
      | Option.none => Option.none
      | some best =>
        match (getValues data best).mapM (fun v =>
            (makeTreeF fuel (getExamples data best v)
                (attrs.filter (fun a => a ≠ best)) tgt).map (fun st => (v, st))) with
        | Option.none => Option.none
        | some kvs => some (.dict [(Scalar.str best, .dict kvs)])

/-- Model of `DTree.train` / `DTree._make_tree` as called from `train`. -/
def makeTree (data : List Record) (attrs : List String) (tgt : String) : Option Lit :=
  makeTreeF (attrs.length + 1) data attrs tgt

/-- The sentinel returned by `DTree.use` when a record cannot be classified:
the plain Python string `"unknown"`. -/
def unknownLit : Lit := .scalar (.str "unknown")

mutual

/-- Model of `DTree.use`:

  if type(tree) == type("string"): return tree
  attr = tree.keys()[0]
  if attr not in record: return "unknown"
  if record[attr] not in tree[attr]: return "unknown"
  t = tree[attr][record[attr]]
  return self.use(record, t)

A leaf is recognised only when the node is a string; an int or `None` node falls
through to `tree.keys()` and raises (`Option.none`). An empty dictionary raises on
`keys()[0]`. A non-string first key is never a key of the string-keyed record, so
the attribute test returns the `"unknown"` sentinel. When `tree[attr]` is itself a
string, the Python membership test `record[attr] not in tree[attr]` is a substring
test for a string value (a miss returns `"unknown"`; a hit then raises on indexing
a string with a string) and raises `TypeError` for a non-string value. -/
def use (r : Record) : Lit → Option Lit
  | .scalar (.str s) => some (.scalar (.str s))
  | .scalar (.int _) => Option.none
  | .scalar .none => Option.none
  | .dict [] => Option.none
  | .dict ((k, inner) :: _) =>
    match k with
    | .str a =>
      match r.lookup a with
      | Option.none => some unknownLit
      | some v =>
        match inner with
        | .dict children => useLookup r v children
        | .scalar (.str s) =>
          match v with
          | .str vs => if vs.data <:+: s.data then Option.none else some unknownLit
          | _ => Option.none
        | .scalar (.int _) => Option.none
        | .scalar .none => Option.none
    | .int _ => some unknownLit
    | .none => some unknownLit

/-- Scan of the children dictionary of a split node: Python first tests
`record[attr] not in tree[attr]` (no match: the `"unknown"` sentinel) and otherwise
descends into `tree[attr][record[attr]]`. -/
def useLookup (r : Record) (v : Scalar) : List (Scalar × Lit) → Option Lit
  | [] => some unknownLit
  | (k, child) :: rest => if k = v then use r child else useLookup r v rest

end

-- Sanity checks of the executable pipeline on the XOR example of dtree.py.

/-- The XOR training data of the `__main__` block of dtree.py. -/
def xorData : List Record :=
  [ [("a", .int 0), ("b", .int 0), ("xor", .str "no")],
    [("a", .int 0), ("b", .int 1), ("xor", .str "yes")],
    [("a", .int 1), ("b", .int 0), ("xor", .str "yes")],
    [("a", .int 1), ("b", .int 1), ("xor", .str "no")] ]

/-- The attribute list of the XOR example. -/
def xorAttrs : List String := ["a", "b", "xor"]

/-- The tree `DTree.train` builds from the XOR data: the chooser picks `b` at the
root (all candidate gains are 0 there and the later-listed candidate wins), then
`a` below. -/
def xorTree : Lit :=
  .dict [(.str "b", .dict
    [ (.int 0, .dict [(.str "a", .dict
        [(.int 1, .scalar (.str "yes")), (.int 0, .scalar (.str "no"))])]),
      (.int 1, .dict [(.str "a", .dict
        [(.int 1, .scalar (.str "no")), (.int 0, .scalar (.str "yes"))])]) ])]

example : makeTree xorData xorAttrs "xor" = some xorTree := rfl

example : use [("a", .int 0), ("b", .int 1)] xorTree = some (.scalar (.str "yes")) := rfl

example : use [("a", .int 1), ("b", .int 1)] xorTree = some (.scalar (.str "no")) := rfl

/-! ## Serializer: `str(self.tree)` and `ast.literal_eval`

`DTree.export` writes `str(self.tree)` to a file; `DTree.import_ai` installs
`ast.literal_eval(f.read())` as the tree without any further validation. We model
the file content as a `String`, Python 2 `str()` of our literal fragment as
`exportAi`, and `ast.literal_eval` as `importAi` (a failure, `Option.none`, stands
for the `ValueError`/`SyntaxError` the call raises on text that is not a literal).
The parser accepts exactly the canonical texts `repr` produces for this fragment;
Python is slightly more lenient (extra whitespace, tuples, octal escapes and the
less common string escapes), but no theorem below depends on such non-canonical
texts. -/

/-- Left brace character. -/
def lbrace : Char := Char.ofNat 123

/-- Right brace character. -/
def rbrace : Char := Char.ofNat 125

/-- Single-quote character. -/
def squote : Char := Char.ofNat 39

/-- Double-quote character. -/
def dquote : Char := Char.ofNat 34

/-- Backslash character. -/
def bslash : Char := Char.ofNat 92

/-- Newline character. -/
def nlChar : Char := Char.ofNat 10

/-- Carriage-return character. -/
def crChar : Char := Char.ofNat 13

/-- Tab character. -/
def tabChar : Char := Char.ofNat 9

/-- The quote character Python 2 `repr` picks for a string: a single quote, unless
the string contains a single quote and no double quote. -/
def quoteFor (s : String) : Char :=
  if s.data.contains squote ∧ ¬ s.data.contains dquote then dquote else squote

/-- Python 2 `repr` escaping of one string character relative to the chosen quote:
the quote and the backslash get backslash-escaped, newline, carriage return and tab
become two-character escapes, other characters outside 32..126 become `\xhh`, and
everything else is emitted verbatim. Faithful for byte-range characters (Python 2
strings are byte strings; see `goodLit`). -/
def reprStrChar (q c : Char) : List Char :=
  if c = q ∨ c = bslash then [bslash, c]
  else if c = nlChar then [bslash, 'n']
  else if c = crChar then [bslash, 'r']
  else if c = tabChar then [bslash, 't']
  else if c.toNat < 32 ∨ 127 ≤ c.toNat then
    [bslash, 'x', Nat.digitChar (c.toNat / 16 % 16), Nat.digitChar (c.toNat % 16)]
  else [c]

/-- Little-endian decimal digits of `n`, with explicit fuel (any fuel at least the
number of digits gives the full digit list; `natChars` supplies `n` itself). -/
def natDigitsRev : ℕ → ℕ → List ℕ
  | 0, _ => []
  | fuel + 1, n => if n = 0 then [] else n % 10 :: natDigitsRev fuel (n / 10)

/-- Decimal digit characters of a natural number, most significant first. -/
def natChars (n : ℕ) : List Char :=
  if n = 0 then ['0'] else ((natDigitsRev n n).reverse.map Nat.digitChar)

/-- Python `repr` of an int: optional minus sign and decimal digits. -/
def intChars (i : Int) : List Char :=
  if i < 0 then '-' :: natChars i.natAbs else natChars i.natAbs

/-- Python 2 `repr` of a scalar. -/
def reprScalar : Scalar → List Char
  | .int i => intChars i
  | .str s =>
    let q := quoteFor s
    q :: s.data.foldr (fun c acc => reprStrChar q c ++ acc) [q]
  | .none => ['N', 'o', 'n', 'e']

mutual

/-- Python 2 `repr` of a literal structure (`str` and `repr` agree on dictionaries,
ints and `None`; they differ on top-level strings, which is `exportAi`). -/
def reprLit : Lit → List Char
  | .scalar s => reprScalar s
  | .dict es => lbrace :: reprEntries es ++ [rbrace]

/-- Dictionary body: `repr(key): repr(value)` entries joined by a comma and space. -/
def reprEntries : List (Scalar × Lit) → List Char
  | [] => []
  | (k, v) :: rest =>
    reprScalar k ++ ':' :: ' ' :: reprLit v ++
      (if rest.isEmpty then [] else [',', ' ']) ++ reprEntries rest

end

/-- Model of `DTree.export`: the file content is `str(self.tree)`. Python 2 `str`
of a string is the string itself, unquoted; on every other value of our fragment
`str` agrees with `repr`. -/
def exportAi : Lit → String
  | .scalar (.str s) => s
  | t => String.mk (reprLit t)

/-- Decimal digit test used by the parser. -/
def isDigitC (c : Char) : Bool := c.isDigit

/-- Lowercase hexadecimal digit test (`\xhh` escapes as Python 2 `repr` writes them). -/
def isHexC (c : Char) : Bool := c.isDigit || (97 ≤ c.toNat && c.toNat ≤ 102)

/-- Value of a lowercase hexadecimal digit. -/
def hexVal (c : Char) : ℕ :=
  if c.isDigit then c.toNat - 48 else c.toNat - 87

/-- String-literal body parser: consumes characters up to the closing quote `q`,
undoing the escapes of `reprStrChar`. An unknown escape keeps the backslash and the
character, as Python 2 does for unrecognised escape sequences. -/
def parseStrBody (q : Char) : List Char → Option (List Char × List Char)
  | [] => Option.none
  | c :: cs =>
    if c = q then some ([], cs)
    else if c = bslash then
      match cs with
      | [] => Option.none
      | e :: cs2 =>
        if e = 'x' then
          match cs2 with
          | h1 :: h2 :: cs3 =>
            if isHexC h1 && isHexC h2 then
              (parseStrBody q cs3).map
                (fun pr => (Char.ofNat (16 * hexVal h1 + hexVal h2) :: pr.1, pr.2))
            else Option.none
          | _ => Option.none
        else if e = 'n' then
          (parseStrBody q cs2).map (fun pr => (nlChar :: pr.1, pr.2))
        else if e = 'r' then
          (parseStrBody q cs2).map (fun pr => (crChar :: pr.1, pr.2))
        else if e = 't' then
          (parseStrBody q cs2).map (fun pr => (tabChar :: pr.1, pr.2))
        else if e = squote ∨ e = dquote ∨ e = bslash then
          (parseStrBody q cs2).map (fun pr => (e :: pr.1, pr.2))
        else
          (parseStrBody q cs2).map (fun pr => (bslash :: e :: pr.1, pr.2))
    else (parseStrBody q cs).map (fun pr => (c :: pr.1, pr.2))

/-- Parse a maximal nonempty run of decimal digits into a natural number. -/
def parseDigits (cs : List Char) : Option (ℕ × List Char) :=
  let ds := cs.takeWhile isDigitC
  if ds.isEmpty then Option.none
  else some (ds.foldl (fun acc c => 10 * acc + (c.toNat - 48)) 0, cs.drop ds.length)

/-- Parse one scalar literal: a quoted string, `None`, or a decimal integer with
optional minus sign. -/
def parseScalar : List Char → Option (Scalar × List Char)
  | [] => Option.none
  | c :: rest =>
    if c = squote ∨ c = dquote then
      (parseStrBody c rest).map (fun pr => (Scalar.str (String.mk pr.1), pr.2))
    else if c = 'N' then
      match rest with
      | 'o' :: 'n' :: 'e' :: rest2 => some (Scalar.none, rest2)
      | _ => Option.none
    else if c = '-' then
      (parseDigits rest).map (fun pr => (Scalar.int (-(pr.1 : Int)), pr.2))
    else if isDigitC c then
      (parseDigits (c :: rest)).map (fun pr => (Scalar.int (pr.1 : Int), pr.2))
    else Option.none

mutual

/-- Literal parser: a dictionary (brace-delimited entry list with scalar keys — a
non-scalar key would make Python raise on hashing, which the shape already rules
out) or a scalar. Fuel bounds the nesting depth; `parseLit` supplies more fuel than
any text can need. -/
def parseLitF : ℕ → List Char → Option (Lit × List Char)
  | 0, _ => Option.none
  | fuel + 1, cs =>
    match cs with
    | [] => Option.none
    | c :: rest =>
      if c = lbrace then
        match rest with
        | [] => Option.none
        | d :: rest2 =>
          if d = rbrace then some (.dict [], rest2)
          else
            (parseEntriesF fuel rest).map (fun pr => (Lit.dict pr.1, pr.2))
      else
        (parseScalar (c :: rest)).map (fun pr => (Lit.scalar pr.1, pr.2))

/-- Entry-list parser: `key: value` then either `, ` and further entries or the
closing brace. -/
def parseEntriesF : ℕ → List Char → Option (List (Scalar × Lit) × List Char)
  | 0, _ => Option.none
  | fuel + 1, cs =>
    match parseScalar cs with
    | Option.none => Option.none
    | some (k, cs1) =>
      match cs1 with
      | c1 :: c2 :: cs2 =>
        if c1 = ':' ∧ c2 = ' ' then
          match parseLitF fuel cs2 with
          | Option.none => Option.none
          | some (v, cs3) =>
            match cs3 with
            | [] => Option.none
            | d :: cs4 =>
              if d = rbrace then some ([(k, v)], cs4)
              else
                match cs4 with
                | e :: cs5 =>
                  if d = ',' ∧ e = ' ' then
                    (parseEntriesF fuel cs5).map (fun pr => ((k, v) :: pr.1, pr.2))
                  else Option.none
                | [] => Option.none
        else Option.none
      | _ => Option.none

end

/-- Parse a complete text as one literal with nothing left over. -/
def parseLit (s : String) : Option Lit :=
  match parseLitF (s.length + 1) s.data with
  | some (l, []) => some l
  | _ => Option.none

/-- Model of `DTree.import_ai`: the imported tree is `ast.literal_eval` of the file
content, installed without any shape validation; `Option.none` models the exception
raised on text that is not a well-formed literal. -/
def importAi (text : String) : Option Lit := parseLit text

mutual

/-- The node-variant grammar of the specification (section 6): a node is a scalar
leaf, or a single-key mapping whose value is a mapping from scalars to nodes. -/
def isTreeShape : Lit → Bool
  | .scalar _ => true
  | .dict [(_, .dict entries)] => isTreeShapeEntries entries
  | .dict _ => false

/-- Children of a well-shaped split node: every value is again a well-shaped node
(keys are scalars by construction of `Lit`). -/
def isTreeShapeEntries : List (Scalar × Lit) → Bool
  | [] => true
  | (_, v) :: rest => isTreeShape v && isTreeShapeEntries rest

end

/-- Byte-range condition on a scalar: Python 2 strings are byte strings, so the
faithfulness of `reprStrChar` needs every character below 256. -/
def goodScalar : Scalar → Bool
  | .str s => s.data.all (fun c => c.toNat < 256)
  | _ => true

mutual

/-- Byte-range condition on a literal structure, the domain on which `exportAi`
and `importAi` model Python 2 exactly. -/
def goodLit : Lit → Bool
  | .scalar s => goodScalar s
  | .dict es => goodEntries es

/-- Byte-range condition on dictionary entries. -/
def goodEntries : List (Scalar × Lit) → Bool
  | [] => true
  | (k, v) :: rest => goodScalar k && goodLit v && goodEntries rest

end

-- Serializer sanity checks.
example : exportAi xorTree = String.mk (reprLit xorTree) := rfl

example : importAi (exportAi xorTree) = some xorTree := rfl

example : exportAi (.scalar (.str "yes")) = "yes" := rfl

example : importAi "yes" = Option.none := rfl

example : importAi "5" = some (.scalar (.int 5)) := rfl

example : importAi "None" = some (.scalar .none) := rfl

/-! ## Attribute statistics over the reals

`DTree._entropy` and `DTree._gain` compute with Python floats; as usual for a
shallow embedding we model the float arithmetic by exact real arithmetic. -/

/-- Shannon entropy (base 2) of the value distribution of a list, the body of
`DTree._entropy`: `val_freq` holds the count of each distinct value, and the result
is the sum of `-freq/len * log2(freq/len)` over the distinct values (an empty list
yields the empty sum, 0.0, just as the Python loop does). -/
noncomputable def entropyList (lst : List Scalar) : ℝ :=
  (lst.dedup.map (fun v =>
    -((lst.count v : ℝ) / (lst.length : ℝ)) *
      Real.logb 2 ((lst.count v : ℝ) / (lst.length : ℝ)))).sum

/-- Model of `DTree._entropy`: entropy of the target values of the data. -/
noncomputable def entropy (data : List Record) (tgt : String) : ℝ :=
  entropyList (valuesOf data tgt)

/-- The `subset_entropy` accumulator of `DTree._gain`: over each distinct value of
`attr`, the frequency of the value (divided by `ny.sum(val_freq.values())`, the sum
of all the counts) times the entropy of the matching sub-dataset. -/
noncomputable def subsetEntropy (data : List Record) (attr tgt : String) : ℝ :=
  ((valuesOf data attr).dedup.map (fun v =>
    (((valuesOf data attr).count v : ℝ) /
        ((valuesOf data attr).dedup.map (fun w => ((valuesOf data attr).count w : ℝ))).sum) *
      entropy (data.filter (fun r => rget r attr == v)) tgt)).sum

/-- Model of `DTree._gain`: entropy of the data minus the weighted entropy of the
partition of the data by the values of `attr`. -/
noncomputable def gain (data : List Record) (attr tgt : String) : ℝ :=
  entropy data tgt - subsetEntropy data attr tgt

/-! ## Depth and fuelled classification (claim C9 infrastructure) -/

mutual

/-- Nesting depth of dictionaries in a literal structure. A split node of a built
tree contributes two dictionary levels (the attribute level and the value level). -/
def splitDepth : Lit → ℕ
  | .scalar _ => 0
  | .dict es => 1 + splitDepthEntries es

/-- Largest `splitDepth` of the values of an entry list. -/
def splitDepthEntries : List (Scalar × Lit) → ℕ
  | [] => 0
  | (_, v) :: rest => max (splitDepth v) (splitDepthEntries rest)

end

mutual

/-- Fuelled twin of `use`: the outer `Option` is `none` exactly when the recursion
would need to descend into a child with no fuel left. The C9 theorem shows fuel
beyond the dictionary depth of the tree is never consumed, which is the sense in
which classification terminates in at most depth-many recursive calls. -/
def useF : ℕ → Record → Lit → Option (Option Lit)
  | 0, _, _ => Option.none
  | fuel + 1, r, t =>
    match t with
    | .scalar (.str s) => some (some (.scalar (.str s)))
    | .scalar (.int _) => some Option.none
    | .scalar .none => some Option.none
    | .dict [] => some Option.none
    | .dict ((k, inner) :: _) =>
      match k with
      | .str a =>
        match r.lookup a with
        | Option.none => some (some unknownLit)
        | some v =>
          match inner with
          | .dict children => useLookupF fuel r v children
          | .scalar (.str s) =>
            match v with
            | .str vs =>
              some (if vs.data <:+: s.data then Option.none else some unknownLit)
            | _ => some Option.none
          | .scalar (.int _) => some Option.none
          | .scalar .none => some Option.none
      | .int _ => some (some unknownLit)
      | .none => some (some unknownLit)
termination_by fuel _ _ => (fuel, 0)

/-- Fuelled twin of `useLookup`; scanning the children costs no fuel, descending
into the matching child costs one unit. -/
def useLookupF : ℕ → Record → Scalar → List (Scalar × Lit) → Option (Option Lit)
  | _, _, _, [] => some (some unknownLit)
  | fuel, r, v, (k, child) :: rest =>
    if k = v then useF fuel r child else useLookupF fuel r v rest
termination_by fuel _ _ l => (fuel, l.length + 1)

end

/-! ## List and Finset bridges

The Python code sums and multiplies over `list(set(lst))`; these lemmas convert
such dedup-indexed list sums and products into `Finset` sums and products over
`lst.toFinset`, where the Mathlib big-operator library applies. -/

/-- A sum over the deduplicated list is the sum over the corresponding finset. -/
theorem dedup_map_sum {α M : Type*} [DecidableEq α] [AddCommMonoid M]
    (l : List α) (f : α → M) :
    (l.dedup.map f).sum = ∑ x ∈ l.toFinset, f x := by
  rw [Finset.sum, List.toFinset_val]
  rfl

/-- A product over the deduplicated list is the product over the corresponding
finset. -/
theorem dedup_map_prod {α M : Type*} [DecidableEq α] [CommMonoid M]
    (l : List α) (f : α → M) :
    (l.dedup.map f).prod = ∏ x ∈ l.toFinset, f x := by
  rw [Finset.prod, List.toFinset_val]
  rfl

@[simp]
theorem valuesOf_nil (a : String) : valuesOf [] a = [] := rfl

@[simp]
theorem valuesOf_cons (r : Record) (d : List Record) (a : String) :
    valuesOf (r :: d) a = rget r a :: valuesOf d a := rfl

/-- The records matching a value of an attribute are counted by the value list. -/
theorem length_filter_rget (data : List Record) (attr : String) (v : Scalar) :
    (data.filter (fun r => rget r attr == v)).length = (valuesOf data attr).count v := by
  induction data with
  | nil => simp
  | cons r d ih =>
    by_cases h : rget r attr = v <;>
      simp [List.filter_cons, List.count_cons, h, ih]

/-- Summing the counts of the members of a list over any finset containing them
gives the length of the list. -/
theorem sum_count_eq_length {α : Type*} [DecidableEq α] (lst : List α) (S : Finset α)
    (h : ∀ x ∈ lst, x ∈ S) :
    ∑ v ∈ S, lst.count v = lst.length := by
  have hsub : lst.toFinset ⊆ S := fun x hx => h x (List.mem_toFinset.mp hx)
  have hzero : ∀ v ∈ S, v ∉ lst.toFinset → lst.count v = 0 := by
    intro v _ hv
    simp only [List.mem_toFinset] at hv
    exact List.count_eq_zero.mpr hv
  rw [← Finset.sum_subset hsub hzero]
  have h2 := Multiset.toFinset_sum_count_eq (lst : Multiset α)
  simp only [List.toFinset_coe, Multiset.coe_count] at h2
  exact h2

/-- Partition of a count: counting `t` among the target values of the whole data
equals the sum, over any finset covering the attribute values, of the counts of `t`
among the target values of the value-matching sub-datasets. -/
theorem sum_count_filter_partition (data : List Record) (attr tgt : String) (t : Scalar)
    (S : Finset Scalar) (hS : ∀ r ∈ data, rget r attr ∈ S) :
    ∑ v ∈ S, (valuesOf (data.filter (fun r => rget r attr == v)) tgt).count t
      = (valuesOf data tgt).count t := by
  induction data with
  | nil => simp
  | cons r d ih =>
    have hr : rget r attr ∈ S := hS r (by simp)
    have hd : ∀ x ∈ d, rget x attr ∈ S := fun x hx => hS x (by simp [hx])
    have step : ∀ v ∈ S,
        (valuesOf ((r :: d).filter (fun x => rget x attr == v)) tgt).count t
          = (valuesOf (d.filter (fun x => rget x attr == v)) tgt).count t
            + (if rget r attr = v ∧ rget r tgt = t then 1 else 0) := by
      intro v _
      by_cases hv : rget r attr = v
      · by_cases ht : rget r tgt = t <;>
          simp [List.filter_cons, hv, List.count_cons, ht]
      · simp [List.filter_cons, hv]
    rw [Finset.sum_congr rfl step, Finset.sum_add_distrib, ih hd]
    have hsum : ∑ v ∈ S, (if rget r attr = v ∧ rget r tgt = t then 1 else 0)
        = (if rget r tgt = t then 1 else 0) := by
      by_cases ht : rget r tgt = t
      · simp only [ht, and_true]
        rw [Finset.sum_ite_eq S (rget r attr) (fun _ => (1 : ℕ))]
        simp [hr]
      · simp [ht]
    rw [hsum]
    by_cases ht : rget r tgt = t <;> simp [List.count_cons, ht, Nat.add_comm]

/-! ## Exact form of the entropy and the gain

Every entropy value of `DTree._entropy` on a nonempty list of `n` values is
`(1/n) * logb 2 (n^n / powProd)`, and every gain of `DTree._gain` on a nonempty
dataset is `(1/n) * logb 2 (num/den)` with `(num, den) = gainPair`. These are the
facts that justify the cross-multiplied integer comparisons in `chooseAttribute`. -/

/-- The count of a member of the deduplicated list is positive. -/
theorem count_pos_of_mem_toFinset {α : Type*} [DecidableEq α] {lst : List α} {v : α}
    (h : v ∈ lst.toFinset) : 0 < lst.count v :=
  List.count_pos_iff.mpr (List.mem_toFinset.mp h)

/-- The count-power product of any value list is positive. -/
theorem powProd_pos (lst : List Scalar) : 0 < powProd lst := by
  rw [powProd, dedup_map_prod]
  exact Finset.prod_pos (fun v hv =>
    Nat.pos_pow_of_pos _ (count_pos_of_mem_toFinset hv))

/-- Base-2 logarithm of a finite product of count-powers, as a weighted sum of
logarithms. -/
theorem logb_prod_pow {α : Type*} (s : Finset α) (f : α → ℕ)
    (hf : ∀ v ∈ s, 0 < f v) :
    Real.logb 2 (∏ v ∈ s, ((f v : ℝ) ^ f v))
      = ∑ v ∈ s, (f v : ℝ) * Real.logb 2 (f v) := by
  rw [Real.logb_prod _ _ (fun v hv => by
    have := hf v hv
    positivity)]
  refine Finset.sum_congr rfl (fun v hv => ?_)
  rw [Real.logb, Real.log_pow, Real.logb]
  ring

/-- The sum of the real counts over the value finset is the length. -/
theorem sum_count_cast {α : Type*} [DecidableEq α] (lst : List α) :
    ∑ v ∈ lst.toFinset, (lst.count v : ℝ) = (lst.length : ℝ) := by
  rw [← Nat.cast_sum]
  exact_mod_cast congrArg (Nat.cast (R := ℝ))
    (sum_count_eq_length lst lst.toFinset (fun x hx => List.mem_toFinset.mpr hx))

/-- The count-power product as a finset product over the reals. -/
theorem powProd_cast (lst : List Scalar) :
    (powProd lst : ℝ) = ∏ v ∈ lst.toFinset, ((lst.count v : ℝ) ^ lst.count v) := by
  rw [powProd, dedup_map_prod]
  push_cast
  rfl

/-- Exact closed form of the entropy of a nonempty value list. -/
theorem entropyList_eq_logb {lst : List Scalar} (h : lst ≠ []) :
    entropyList lst = (lst.length : ℝ)⁻¹ *
      Real.logb 2 (((lst.length : ℝ) ^ lst.length) / (powProd lst : ℝ)) := by
  have hn : 0 < lst.length := List.length_pos.mpr h
  have hnR : (0 : ℝ) < (lst.length : ℝ) := by exact_mod_cast hn
  have hterm : ∀ v ∈ lst.toFinset,
      -((lst.count v : ℝ) / lst.length) * Real.logb 2 ((lst.count v : ℝ) / lst.length)
        = ((lst.count v : ℝ) / lst.length) * Real.logb 2 lst.length
          - ((lst.count v : ℝ) / lst.length) * Real.logb 2 (lst.count v) := by
    intro v hv
    have hc : 0 < lst.count v := count_pos_of_mem_toFinset hv
    have hcR : (0 : ℝ) < (lst.count v : ℝ) := by exact_mod_cast hc
    rw [Real.logb_div (ne_of_gt hcR) (ne_of_gt hnR)]
    ring
  rw [entropyList, dedup_map_sum, Finset.sum_congr rfl hterm, Finset.sum_sub_distrib]
  have hA : ∑ v ∈ lst.toFinset, ((lst.count v : ℝ) / lst.length) * Real.logb 2 lst.length
      = Real.logb 2 lst.length := by
    rw [← Finset.sum_mul, ← Finset.sum_div, sum_count_cast,
      div_self (ne_of_gt hnR), one_mul]
  have hC : ∑ v ∈ lst.toFinset, ((lst.count v : ℝ) / lst.length) * Real.logb 2 (lst.count v)
      = (∑ v ∈ lst.toFinset, (lst.count v : ℝ) * Real.logb 2 (lst.count v)) / lst.length := by
    rw [Finset.sum_div]
    exact Finset.sum_congr rfl (fun v _ => by ring)
  have hRHS : Real.logb 2 (((lst.length : ℝ) ^ lst.length) / (powProd lst : ℝ))
      = (lst.length : ℝ) * Real.logb 2 lst.length
        - ∑ v ∈ lst.toFinset, (lst.count v : ℝ) * Real.logb 2 (lst.count v) := by
    have hppos : (0 : ℝ) < (powProd lst : ℝ) := by exact_mod_cast powProd_pos lst
    rw [Real.logb_div (by positivity) (ne_of_gt hppos), Real.logb_pow, powProd_cast,
      logb_prod_pow _ _ (fun v hv => count_pos_of_mem_toFinset hv)]
  rw [hA, hC, hRHS]
  field_simp
  ring

@[simp]
theorem valuesOf_length (data : List Record) (a : String) :
    (valuesOf data a).length = data.length := by
  simp [valuesOf]

/-- The target values of the sub-dataset for a value `v` of `attr` are as many as
the occurrences of `v` among the attribute values. -/
theorem subset_values_length (data : List Record) (attr tgt : String) (v : Scalar) :
    (valuesOf (data.filter (fun r => rget r attr == v)) tgt).length
      = (valuesOf data attr).count v := by
  rw [valuesOf_length, length_filter_rget]

/-- Exact closed form of the information gain of `DTree._gain` on a nonempty
dataset: `(1/n) * logb 2 (num/den)` with `(num, den) = gainPair`. -/
theorem gain_eq_logb {data : List Record} (attr tgt : String) (h : data ≠ []) :
    gain data attr tgt = (data.length : ℝ)⁻¹ *
      Real.logb 2
        (((gainPair data attr tgt).1 : ℝ) / ((gainPair data attr tgt).2 : ℝ)) := by
  have hn : 0 < data.length := List.length_pos.mpr h
  have hnR : (0 : ℝ) < (data.length : ℝ) := by exact_mod_cast hn
  have htlen : (valuesOf data tgt).length = data.length := valuesOf_length data tgt
  have halen : (valuesOf data attr).length = data.length := valuesOf_length data attr
  have htne : valuesOf data tgt ≠ [] := by
    intro hcon
    rw [hcon] at htlen
    simp at htlen
    omega
  -- total frequency in the subset-entropy denominator is the dataset size
  have htot : ((valuesOf data attr).dedup.map
      (fun w => ((valuesOf data attr).count w : ℝ))).sum = (data.length : ℝ) := by
    rw [dedup_map_sum, sum_count_cast, halen]
  -- each sub-dataset is nonempty and its entropy has the exact closed form
  have hsubne : ∀ v ∈ (valuesOf data attr).toFinset,
      valuesOf (data.filter (fun r => rget r attr == v)) tgt ≠ [] := by
    intro v hv
    have hc : 0 < (valuesOf data attr).count v := count_pos_of_mem_toFinset hv
    intro hcon
    have := subset_values_length data attr tgt v
    rw [hcon] at this
    simp at this
    omega
  -- rewrite the subset entropy into (1/n) * logb of a quotient of products
  have hterm : ∀ v ∈ (valuesOf data attr).toFinset,
      (((valuesOf data attr).count v : ℝ) / (data.length : ℝ)) *
          entropyList (valuesOf (data.filter (fun r => rget r attr == v)) tgt)
        = (data.length : ℝ)⁻¹ *
            Real.logb 2
              ((((valuesOf data attr).count v : ℝ) ^ (valuesOf data attr).count v) /
                (powProd (valuesOf (data.filter (fun r => rget r attr == v)) tgt) : ℝ)) := by
    intro v hv
    have hc : 0 < (valuesOf data attr).count v := count_pos_of_mem_toFinset hv
    have hcR : (0 : ℝ) < ((valuesOf data attr).count v : ℝ) := by exact_mod_cast hc
    rw [entropyList_eq_logb (hsubne v hv), subset_values_length]
    field_simp
    ring
  have hsubset : subsetEntropy data attr tgt
      = (data.length : ℝ)⁻¹ *
          ∑ v ∈ (valuesOf data attr).toFinset,
            Real.logb 2
              ((((valuesOf data attr).count v : ℝ) ^ (valuesOf data attr).count v) /
                (powProd (valuesOf (data.filter (fun r => rget r attr == v)) tgt) : ℝ)) := by
    rw [subsetEntropy, htot, dedup_map_sum]
    rw [Finset.mul_sum]
    exact Finset.sum_congr rfl (fun v hv => by rw [← hterm v hv, entropy])
  -- the sum of the logarithms is the logarithm of the quotient of two products
  have hsum_logb : ∑ v ∈ (valuesOf data attr).toFinset,
      Real.logb 2
        ((((valuesOf data attr).count v : ℝ) ^ (valuesOf data attr).count v) /
          (powProd (valuesOf (data.filter (fun r => rget r attr == v)) tgt) : ℝ))
      = Real.logb 2 ((powProd (valuesOf data attr) : ℝ) /
          (∏ v ∈ (valuesOf data attr).toFinset,
            (powProd (valuesOf (data.filter (fun r => rget r attr == v)) tgt) : ℝ))) := by
    have hppos : ∀ v ∈ (valuesOf data attr).toFinset, (0 : ℝ) <
        (powProd (valuesOf (data.filter (fun r => rget r attr == v)) tgt) : ℝ) := by
      intro v _
      exact_mod_cast powProd_pos _
    have hexp : ∀ v ∈ (valuesOf data attr).toFinset,
        Real.logb 2
          ((((valuesOf data attr).count v : ℝ) ^ (valuesOf data attr).count v) /
            (powProd (valuesOf (data.filter (fun r => rget r attr == v)) tgt) : ℝ))
          = Real.logb 2 (((valuesOf data attr).count v : ℝ) ^ (valuesOf data attr).count v)
            - Real.logb 2
                (powProd (valuesOf (data.filter (fun r => rget r attr == v)) tgt) : ℝ) := by
      intro v hv
      have hcR : (0 : ℝ) < ((valuesOf data attr).count v : ℝ) := by
        exact_mod_cast count_pos_of_mem_toFinset hv
      exact Real.logb_div (by positivity) (ne_of_gt (hppos v hv))
    rw [Finset.sum_congr rfl hexp, Finset.sum_sub_distrib]
    have h1 : ∑ v ∈ (valuesOf data attr).toFinset,
        Real.logb 2 (((valuesOf data attr).count v : ℝ) ^ (valuesOf data attr).count v)
        = Real.logb 2 (powProd (valuesOf data attr) : ℝ) := by
      rw [powProd_cast, Real.logb_prod _ _ (fun v hv => by
        have : (0 : ℝ) < ((valuesOf data attr).count v : ℝ) := by
          exact_mod_cast count_pos_of_mem_toFinset hv
        positivity)]
    have h2 : ∑ v ∈ (valuesOf data attr).toFinset,
        Real.logb 2
          (powProd (valuesOf (data.filter (fun r => rget r attr == v)) tgt) : ℝ)
        = Real.logb 2 (∏ v ∈ (valuesOf data attr).toFinset,
            (powProd (valuesOf (data.filter (fun r => rget r attr == v)) tgt) : ℝ)) := by
      rw [Real.logb_prod _ _ (fun v hv => ne_of_gt (hppos v hv))]
    rw [h1, h2, ← Real.logb_div (by
        have : (0 : ℝ) < (powProd (valuesOf data attr) : ℝ) := by
          exact_mod_cast powProd_pos _
        exact ne_of_gt this)
      (ne_of_gt (Finset.prod_pos hppos))]
  -- assemble
  rw [gain, entropy, entropyList_eq_logb htne, htlen, hsubset, hsum_logb]
  rw [gainPair]
  have hnum : ((data.length ^ data.length * ((valuesOf data attr).dedup.map (fun v =>
      powProd (valuesOf (data.filter (fun r => rget r attr == v)) tgt))).prod : ℕ) : ℝ)
      = ((data.length : ℝ) ^ data.length) *
          ∏ v ∈ (valuesOf data attr).toFinset,
            (powProd (valuesOf (data.filter (fun r => rget r attr == v)) tgt) : ℝ) := by
    push_cast [dedup_map_prod]
    rfl
  have hden : ((powProd (valuesOf data tgt) * powProd (valuesOf data attr) : ℕ) : ℝ)
      = (powProd (valuesOf data tgt) : ℝ) * (powProd (valuesOf data attr) : ℝ) := by
    push_cast
    rfl
  rw [hnum, hden]
  have hPt : (0 : ℝ) < (powProd (valuesOf data tgt) : ℝ) := by
    exact_mod_cast powProd_pos _
  have hPa : (0 : ℝ) < (powProd (valuesOf data attr) : ℝ) := by
    exact_mod_cast powProd_pos _
  have hPsub : (0 : ℝ) < ∏ v ∈ (valuesOf data attr).toFinset,
      (powProd (valuesOf (data.filter (fun r => rget r attr == v)) tgt) : ℝ) :=
    Finset.prod_pos (fun v _ => by exact_mod_cast powProd_pos _)
  have hnnR : (0 : ℝ) < (data.length : ℝ) ^ data.length := by positivity
  rw [Real.logb_div (ne_of_gt hnnR) (ne_of_gt hPt),
    Real.logb_div (ne_of_gt hPa) (ne_of_gt hPsub),
    Real.logb_div (ne_of_gt (mul_pos hnnR hPsub)) (ne_of_gt (mul_pos hPt hPa)),
    Real.logb_mul (ne_of_gt hnnR) (ne_of_gt hPsub),
    Real.logb_mul (ne_of_gt hPt) (ne_of_gt hPa)]
  ring

/-- The numerator of `gainPair` is positive. -/
theorem gainPair_fst_pos (data : List Record) (attr tgt : String) :
    0 < (gainPair data attr tgt).1 := by
  rw [gainPair]
  have hprod : 0 < ((valuesOf data attr).dedup.map (fun v =>
      powProd (valuesOf (data.filter (fun r => rget r attr == v)) tgt))).prod := by
    apply List.prod_pos
    intro x hx
    obtain ⟨v, _, rfl⟩ := List.mem_map.mp hx
    exact powProd_pos _
  rcases Nat.eq_zero_or_pos data.length with h0 | hpos
  · simpa [h0] using hprod
  · exact Nat.mul_pos (Nat.pos_pow_of_pos _ hpos) hprod

/-- The denominator of `gainPair` is positive. -/
theorem gainPair_snd_pos (data : List Record) (attr tgt : String) :
    0 < (gainPair data attr tgt).2 :=
  Nat.mul_pos (powProd_pos _) (powProd_pos _)

/-- On an empty dataset both loops of `DTree._gain` are empty and the gain is 0. -/
theorem gain_nil (attr tgt : String) : gain [] attr tgt = 0 := by
  simp [gain, entropy, entropyList, subsetEntropy]

@[simp]
theorem gainPair_nil (attr tgt : String) : gainPair [] attr tgt = (1, 1) := rfl

/-- Order of the real gains on a common nonempty dataset is the cross-multiplied
order of the integer pairs: this is why `chooseAttribute` is a faithful model of
the float comparison `gain >= best_gain`. -/
theorem gain_le_gain_iff {data : List Record} (h : data ≠ []) (a b tgt : String) :
    gain data a tgt ≤ gain data b tgt ↔
      (gainPair data a tgt).1 * (gainPair data b tgt).2
        ≤ (gainPair data b tgt).1 * (gainPair data a tgt).2 := by
  have hnR : (0 : ℝ) < (data.length : ℝ) := by
    exact_mod_cast List.length_pos.mpr h
  have ha1 : (0 : ℝ) < ((gainPair data a tgt).1 : ℝ) := by
    exact_mod_cast gainPair_fst_pos data a tgt
  have ha2 : (0 : ℝ) < ((gainPair data a tgt).2 : ℝ) := by
    exact_mod_cast gainPair_snd_pos data a tgt
  have hb1 : (0 : ℝ) < ((gainPair data b tgt).1 : ℝ) := by
    exact_mod_cast gainPair_fst_pos data b tgt
  have hb2 : (0 : ℝ) < ((gainPair data b tgt).2 : ℝ) := by
    exact_mod_cast gainPair_snd_pos data b tgt
  rw [gain_eq_logb a tgt h, gain_eq_logb b tgt h,
    mul_le_mul_left (inv_pos.mpr hnR),
    Real.logb_le_logb (by norm_num) (div_pos ha1 ha2) (div_pos hb1 hb2),
    div_le_div_iff₀ ha2 hb2]
  exact_mod_cast Iff.rfl

/-- Equality of the real gains on a common nonempty dataset is the cross-multiplied
equality of the integer pairs. -/
theorem gain_eq_gain_iff {data : List Record} (h : data ≠ []) (a b tgt : String) :
    gain data a tgt = gain data b tgt ↔
      (gainPair data a tgt).1 * (gainPair data b tgt).2
        = (gainPair data b tgt).1 * (gainPair data a tgt).2 := by
  constructor
  · intro he
    exact Nat.le_antisymm
      ((gain_le_gain_iff h a b tgt).mp he.le)
      ((gain_le_gain_iff h b a tgt).mp he.ge)
  · intro he
    exact le_antisymm
      ((gain_le_gain_iff h a b tgt).mpr he.le)
      ((gain_le_gain_iff h b a tgt).mpr he.ge)

/-- The real gain vanishes exactly when the two components of `gainPair` agree. -/
theorem gain_eq_zero_iff {data : List Record} (h : data ≠ []) (attr tgt : String) :
    gain data attr tgt = 0 ↔
      (gainPair data attr tgt).1 = (gainPair data attr tgt).2 := by
  have hnR : (0 : ℝ) < (data.length : ℝ) := by
    exact_mod_cast List.length_pos.mpr h
  have h1 : (0 : ℝ) < ((gainPair data attr tgt).1 : ℝ) := by
    exact_mod_cast gainPair_fst_pos data attr tgt
  have h2 : (0 : ℝ) < ((gainPair data attr tgt).2 : ℝ) := by
    exact_mod_cast gainPair_snd_pos data attr tgt
  rw [gain_eq_logb attr tgt h, mul_eq_zero]
  constructor
  · intro hc
    rcases hc with hc | hc
    · exact absurd hc (inv_pos.mpr hnR).ne'
    · have hq : ((gainPair data attr tgt).1 : ℝ) / ((gainPair data attr tgt).2 : ℝ) = 1 := by
        rcases Real.logb_eq_zero.mp hc with h | h | h | h | h | h
        · norm_num at h
        · norm_num at h
        · norm_num at h
        · exact absurd h (div_pos h1 h2).ne'
        · exact h
        · exfalso
          have hpos := div_pos h1 h2
          rw [h] at hpos
          norm_num at hpos
      have := (div_eq_one_iff_eq (ne_of_gt h2)).mp hq
      exact_mod_cast this
  · intro he
    right
    rw [show ((gainPair data attr tgt).1 : ℝ) = ((gainPair data attr tgt).2 : ℝ) by
        exact_mod_cast he,
      div_self (ne_of_gt h2)]
    simp [Real.logb]

/-! ## Conditioning does not increase entropy (claim C5 infrastructure)

The weighted subset entropy computed by `DTree._gain` never exceeds the entropy of
the whole dataset. The proof is the standard finite Jensen argument applied to the
concave function `x ↦ -x * logb 2 x` for each target value separately. -/

/-- The entropy summand function is concave on the nonnegative reals. -/
theorem concaveGainTerm : ConcaveOn ℝ (Set.Ici (0 : ℝ))
    (fun x => -x * Real.logb 2 x) := by
  have hlog : (0 : ℝ) ≤ (Real.log 2)⁻¹ :=
    inv_nonneg.mpr (Real.log_pos one_lt_two).le
  have hsmul := Real.concaveOn_negMulLog.smul hlog
  have hfun : (fun x => -x * Real.logb 2 x)
      = fun x : ℝ => (Real.log 2)⁻¹ • Real.negMulLog x := by
    funext x
    simp only [smul_eq_mul, Real.negMulLog, Real.logb]
    ring
  rw [hfun]
  exact hsmul

/-- Members of the target values of a value-matching sub-dataset are target values
of the whole dataset. -/
theorem subset_values_toFinset_subset (data : List Record) (attr tgt : String)
    (v : Scalar) :
    (valuesOf (data.filter (fun r => rget r attr == v)) tgt).toFinset
      ⊆ (valuesOf data tgt).toFinset := by
  intro t ht
  rw [List.mem_toFinset] at ht ⊢
  obtain ⟨r, hr, rfl⟩ := List.mem_map.mp ht
  exact List.mem_map.mpr ⟨r, List.mem_of_mem_filter hr, rfl⟩

/-- Jensen step: the weighted subset entropy is at most the data entropy. -/
theorem subsetEntropy_le_entropy {data : List Record} (attr tgt : String)
    (h : data ≠ []) :
    subsetEntropy data attr tgt ≤ entropy data tgt := by
  have hn : 0 < data.length := List.length_pos.mpr h
  have hnR : (0 : ℝ) < (data.length : ℝ) := by exact_mod_cast hn
  have halen : (valuesOf data attr).length = data.length := valuesOf_length data attr
  have htot : ((valuesOf data attr).dedup.map
      (fun w => ((valuesOf data attr).count w : ℝ))).sum = (data.length : ℝ) := by
    rw [dedup_map_sum, sum_count_cast, halen]
  -- the subset entropy as a double finset sum
  have hsub1 : ∀ v ∈ (valuesOf data attr).toFinset,
      entropyList (valuesOf (data.filter (fun r => rget r attr == v)) tgt)
        = ∑ t ∈ (valuesOf data tgt).toFinset,
            -(((valuesOf (data.filter (fun r => rget r attr == v)) tgt).count t : ℝ) /
                ((valuesOf data attr).count v : ℝ)) *
              Real.logb 2
                (((valuesOf (data.filter (fun r => rget r attr == v)) tgt).count t : ℝ) /
                  ((valuesOf data attr).count v : ℝ)) := by
    intro v hv
    rw [entropyList, dedup_map_sum]
    rw [Finset.sum_congr rfl (fun t _ => by rw [subset_values_length data attr tgt v])]
    refine Finset.sum_subset (subset_values_toFinset_subset data attr tgt v) ?_
    intro t _ ht
    rw [List.mem_toFinset] at ht
    rw [List.count_eq_zero.mpr ht]
    simp
  have hsub2 : subsetEntropy data attr tgt
      = ∑ t ∈ (valuesOf data tgt).toFinset, ∑ v ∈ (valuesOf data attr).toFinset,
          (((valuesOf data attr).count v : ℝ) / (data.length : ℝ)) *
            (-(((valuesOf (data.filter (fun r => rget r attr == v)) tgt).count t : ℝ) /
                ((valuesOf data attr).count v : ℝ)) *
              Real.logb 2
                (((valuesOf (data.filter (fun r => rget r attr == v)) tgt).count t : ℝ) /
                  ((valuesOf data attr).count v : ℝ))) := by
    rw [subsetEntropy, htot, dedup_map_sum, Finset.sum_comm]
    refine Finset.sum_congr rfl (fun v hv => ?_)
    rw [entropy, hsub1 v hv, Finset.mul_sum]
  -- the data entropy as a finset sum
  have hent : entropy data tgt
      = ∑ t ∈ (valuesOf data tgt).toFinset,
          -(((valuesOf data tgt).count t : ℝ) / (data.length : ℝ)) *
            Real.logb 2 (((valuesOf data tgt).count t : ℝ) / (data.length : ℝ)) := by
    rw [entropy, entropyList, dedup_map_sum]
    exact Finset.sum_congr rfl (fun t _ => by rw [valuesOf_length])
  rw [hsub2, hent]
  refine Finset.sum_le_sum (fun t _ => ?_)
  -- Jensen for one target value
  have hw : ∀ v ∈ (valuesOf data attr).toFinset,
      (0 : ℝ) ≤ ((valuesOf data attr).count v : ℝ) / (data.length : ℝ) := by
    intro v _
    positivity
  have hw1 : ∑ v ∈ (valuesOf data attr).toFinset,
      ((valuesOf data attr).count v : ℝ) / (data.length : ℝ) = 1 := by
    rw [← Finset.sum_div, sum_count_cast, halen, div_self (ne_of_gt hnR)]
  have hmem : ∀ v ∈ (valuesOf data attr).toFinset,
      (((valuesOf (data.filter (fun r => rget r attr == v)) tgt).count t : ℝ) /
          ((valuesOf data attr).count v : ℝ)) ∈ Set.Ici (0 : ℝ) := by
    intro v _
    have : (0 : ℝ) ≤ (((valuesOf (data.filter (fun r => rget r attr == v)) tgt).count t : ℝ) /
        ((valuesOf data attr).count v : ℝ)) := by positivity
    exact this
  have hjensen := concaveGainTerm.le_map_sum hw hw1 hmem
  have hcenter : ∑ v ∈ (valuesOf data attr).toFinset,
      (((valuesOf data attr).count v : ℝ) / (data.length : ℝ)) •
        (((valuesOf (data.filter (fun r => rget r attr == v)) tgt).count t : ℝ) /
          ((valuesOf data attr).count v : ℝ))
      = ((valuesOf data tgt).count t : ℝ) / (data.length : ℝ) := by
    have hstep : ∀ v ∈ (valuesOf data attr).toFinset,
        (((valuesOf data attr).count v : ℝ) / (data.length : ℝ)) •
            (((valuesOf (data.filter (fun r => rget r attr == v)) tgt).count t : ℝ) /
              ((valuesOf data attr).count v : ℝ))
          = ((valuesOf (data.filter (fun r => rget r attr == v)) tgt).count t : ℝ) /
              (data.length : ℝ) := by
      intro v hv
      have hc : (0 : ℝ) < ((valuesOf data attr).count v : ℝ) := by
        exact_mod_cast count_pos_of_mem_toFinset hv
      rw [smul_eq_mul]
      field_simp
      ring
    rw [Finset.sum_congr rfl hstep, ← Finset.sum_div]
    congr 1
    rw [← Nat.cast_sum]
    have hpart := sum_count_filter_partition data attr tgt t
      (valuesOf data attr).toFinset
      (fun r hr => List.mem_toFinset.mpr (List.mem_map.mpr ⟨r, hr, rfl⟩))
    exact_mod_cast hpart
  rw [hcenter] at hjensen
  calc ∑ v ∈ (valuesOf data attr).toFinset,
        (((valuesOf data attr).count v : ℝ) / (data.length : ℝ)) *
          (-(((valuesOf (data.filter (fun r => rget r attr == v)) tgt).count t : ℝ) /
              ((valuesOf data attr).count v : ℝ)) *
            Real.logb 2
              (((valuesOf (data.filter (fun r => rget r attr == v)) tgt).count t : ℝ) /
                ((valuesOf data attr).count v : ℝ)))
      = ∑ v ∈ (valuesOf data attr).toFinset,
          (((valuesOf data attr).count v : ℝ) / (data.length : ℝ)) •
            ((fun x => -x * Real.logb 2 x)
              (((valuesOf (data.filter (fun r => rget r attr == v)) tgt).count t : ℝ) /
                ((valuesOf data attr).count v : ℝ))) := by
        exact Finset.sum_congr rfl (fun v _ => by rw [smul_eq_mul])
    _ ≤ (fun x => -x * Real.logb 2 x)
          (((valuesOf data tgt).count t : ℝ) / (data.length : ℝ)) := hjensen
    _ = -(((valuesOf data tgt).count t : ℝ) / (data.length : ℝ)) *
          Real.logb 2 (((valuesOf data tgt).count t : ℝ) / (data.length : ℝ)) := rfl

/-- The information gain of `DTree._gain` is nonnegative on a nonempty dataset. -/
theorem gain_nonneg {data : List Record} (attr tgt : String) (h : data ≠ []) :
    0 ≤ gain data attr tgt :=
  sub_nonneg.mpr (subsetEntropy_le_entropy attr tgt h)

/-! ## Properties of the attribute chooser -/

/-- The denominator of a gain pair never exceeds the numerator: this is the exact
counterpart of the nonnegativity of the information gain, and it is what makes the
very first non-target candidate win against the initial `best_gain = 0.0`. -/
theorem gainPair_snd_le_fst (data : List Record) (attr tgt : String) :
    (gainPair data attr tgt).2 ≤ (gainPair data attr tgt).1 := by
  rcases eq_or_ne data [] with rfl | h
  · simp
  · have h0 := gain_nonneg attr tgt h
    rw [gain_eq_logb attr tgt h] at h0
    have hnR : (0 : ℝ) < (data.length : ℝ) := by
      exact_mod_cast List.length_pos.mpr h
    have h1 : (0 : ℝ) < ((gainPair data attr tgt).1 : ℝ) := by
      exact_mod_cast gainPair_fst_pos data attr tgt
    have h2 : (0 : ℝ) < ((gainPair data attr tgt).2 : ℝ) := by
      exact_mod_cast gainPair_snd_pos data attr tgt
    have hlogb : (0 : ℝ) ≤ Real.logb 2
        (((gainPair data attr tgt).1 : ℝ) / ((gainPair data attr tgt).2 : ℝ)) := by
      by_contra hneg
      push_neg at hneg
      nlinarith [inv_pos.mpr hnR]
    have hone := (Real.logb_nonneg_iff (by norm_num) (div_pos h1 h2)).mp hlogb
    have := (one_le_div h2).mp hone
    exact_mod_cast this

/-- A chosen attribute comes from the candidate list and differs from the target. -/
theorem chooseAttribute_mem {data : List Record} {attrs : List String} {tgt b : String}
    (h : chooseAttribute data attrs tgt = some b) : b ∈ attrs ∧ b ≠ tgt := by
  have aux : ∀ (l : List String) (p : ℕ × ℕ) (o : Option String),
      (l.foldl (chooseStep data tgt) (p, o)).2 = some b →
        o = some b ∨ (b ∈ l ∧ b ≠ tgt) := by
    intro l
    induction l with
    | nil => intro p o h0; exact Or.inl h0
    | cons a rest ih =>
      intro p o h0
      rw [List.foldl_cons] at h0
      rcases hstep : chooseStep data tgt (p, o) a with ⟨p', o'⟩
      rw [hstep] at h0
      rcases ih p' o' h0 with h1 | h1
      · rw [chooseStep] at hstep
        split at hstep
        · rename_i hcond
          injection hstep with hp ho
          rw [← ho] at h1
          injection h1 with hab
          subst hab
          exact Or.inr ⟨List.mem_cons_self a rest, hcond.2⟩
        · injection hstep with hp ho
          rw [← ho] at h1
          exact Or.inl h1
      · exact Or.inr ⟨List.mem_cons_of_mem a h1.1, h1.2⟩
  rcases aux attrs (1, 1) Option.none h with h1 | h1
  · exact absurd h1 (by simp)
  · exact h1

/-- Appending to the head: the last element of `a :: l` or a fallback equals the
last element of `l` or the fallback `some a`. -/
theorem getLast?_cons_or {α : Type*} (a : α) (l : List α) (o : Option α) :
    ((a :: l).getLast?).or o = (l.getLast?).or (some a) := by
  cases l with
  | nil => simp
  | cons b m =>
    rw [List.getLast?_cons_cons]
    have hs : ((b :: m).getLast?).isSome := by
      rw [List.getLast?_isSome]
      simp
    obtain ⟨x, hx⟩ := Option.isSome_iff_exists.mp hs
    rw [hx]
    simp [Option.or]

/-- When every non-target candidate has a balanced gain pair (`num = den`, i.e.
zero real gain), the running comparison `gain >= best_gain` succeeds at every
non-target candidate, so the final choice is the last-listed non-target candidate
(or the starting value if there is none). -/
theorem foldl_chooseStep_all_zero (data : List Record) (tgt : String) :
    ∀ (l : List String) (p : ℕ × ℕ) (o : Option String), p.1 = p.2 →
      (∀ a ∈ l, a ≠ tgt →
        (gainPair data a tgt).1 = (gainPair data a tgt).2) →
      (l.foldl (chooseStep data tgt) (p, o)).2
        = ((l.filter (fun a => a ≠ tgt)).getLast?).or o := by
  intro l
  induction l with
  | nil => intro p o hp hall; simp
  | cons a rest ih =>
    intro p o hp hall
    rw [List.foldl_cons]
    by_cases ha : a = tgt
    · have hstep : chooseStep data tgt (p, o) a = (p, o) := by
        rw [chooseStep]
        split
        · rename_i hcond
          exact absurd ha hcond.2
        · rfl
      rw [hstep, ih p o hp (fun x hx => hall x (List.mem_cons_of_mem a hx))]
      have : (a :: rest).filter (fun x => x ≠ tgt) = rest.filter (fun x => x ≠ tgt) := by
        simp [List.filter_cons, ha]
      rw [this]
    · have hg := hall a (List.mem_cons_self a rest) ha
      have hstep : chooseStep data tgt (p, o) a = (gainPair data a tgt, some a) := by
        rw [chooseStep]
        split
        · rfl
        · rename_i hcond
          rw [not_and_or] at hcond
          rcases hcond with hcond | hcond
          · rw [hp, hg] at hcond
            exact absurd (Nat.mul_comm _ _ ▸ le_refl _) hcond
          · exact absurd (not_not.mp hcond) ha
    -- continue below
      rw [hstep,
        ih (gainPair data a tgt) (some a) hg
          (fun x hx => hall x (List.mem_cons_of_mem a hx))]
      have hfil : (a :: rest).filter (fun x => x ≠ tgt)
          = a :: rest.filter (fun x => x ≠ tgt) := by
        simp [List.filter_cons, ha]
      rw [hfil, getLast?_cons_or]

/-! ## Permutation invariance of the statistics (claim C8 infrastructure) -/

/-- Value lists of permuted datasets are permuted. -/
theorem valuesOf_perm {data data' : List Record} (h : data.Perm data') (a : String) :
    (valuesOf data a).Perm (valuesOf data' a) := h.map _

/-- The frequency total of `DTree._gain` is the dataset size. -/
theorem tot_eq_length (data : List Record) (attr : String) :
    ((valuesOf data attr).dedup.map
      (fun w => ((valuesOf data attr).count w : ℝ))).sum = (data.length : ℝ) := by
  rw [dedup_map_sum, sum_count_cast, valuesOf_length]

/-- Entropy only depends on the value multiset. -/
theorem entropyList_perm {l l' : List Scalar} (h : l.Perm l') :
    entropyList l = entropyList l' := by
  rw [entropyList, entropyList, dedup_map_sum, dedup_map_sum,
    List.toFinset_eq_of_perm _ _ h, h.length_eq]
  exact Finset.sum_congr rfl (fun v _ => by rw [h.count_eq])

/-- The entropy of `DTree._entropy` is invariant under dataset permutation. -/
theorem entropy_perm {data data' : List Record} (h : data.Perm data') (tgt : String) :
    entropy data tgt = entropy data' tgt :=
  entropyList_perm (valuesOf_perm h tgt)

/-- The weighted subset entropy of `DTree._gain` is invariant under dataset
permutation. -/
theorem subsetEntropy_perm {data data' : List Record} (h : data.Perm data')
    (attr tgt : String) :
    subsetEntropy data attr tgt = subsetEntropy data' attr tgt := by
  have hv := valuesOf_perm h attr
  rw [subsetEntropy, subsetEntropy, tot_eq_length, tot_eq_length, ← h.length_eq,
    dedup_map_sum, dedup_map_sum, List.toFinset_eq_of_perm _ _ hv]
  refine Finset.sum_congr rfl (fun v _ => ?_)
  rw [hv.count_eq, entropy_perm (h.filter _) tgt]

/-- The information gain of `DTree._gain` is invariant under dataset permutation. -/
theorem gain_perm {data data' : List Record} (h : data.Perm data') (attr tgt : String) :
    gain data attr tgt = gain data' attr tgt := by
  rw [gain, gain, entropy_perm h, subsetEntropy_perm h]

/-- The count-power product only depends on the value multiset. -/
theorem powProd_perm {l l' : List Scalar} (h : l.Perm l') : powProd l = powProd l' := by
  rw [powProd, powProd, dedup_map_prod, dedup_map_prod, List.toFinset_eq_of_perm _ _ h]
  exact Finset.prod_congr rfl (fun v _ => by rw [h.count_eq])

/-- The exact gain pair is invariant under dataset permutation. -/
theorem gainPair_perm {data data' : List Record} (h : data.Perm data')
    (attr tgt : String) :
    gainPair data attr tgt = gainPair data' attr tgt := by
  have hv := valuesOf_perm h attr
  rw [gainPair, gainPair]
  congr 1
  · rw [← h.length_eq, dedup_map_prod, dedup_map_prod, List.toFinset_eq_of_perm _ _ hv]
    congr 1
    exact Finset.prod_congr rfl
      (fun v _ => powProd_perm (valuesOf_perm (h.filter _) tgt))
  · rw [powProd_perm (valuesOf_perm h tgt), powProd_perm hv]

/-- Best-attribute selection of `DTree._choose_attribute` is invariant under
dataset permutation. -/
theorem chooseAttribute_perm {data data' : List Record} (h : data.Perm data')
    (attrs : List String) (tgt : String) :
    chooseAttribute data attrs tgt = chooseAttribute data' attrs tgt := by
  rw [chooseAttribute, chooseAttribute]
  have hstep : chooseStep data tgt = chooseStep data' tgt := by
    funext best attr
    rw [chooseStep, chooseStep, gainPair_perm h]
  rw [hstep]

/-! ## Fuel does not matter for the builder (claim C9 infrastructure) -/

/-- Congruence for `List.mapM` over `Option`. -/
theorem mapM_option_congr {α β : Type*} {f g : α → Option β} :
    ∀ {l : List α}, (∀ x ∈ l, f x = g x) → l.mapM f = l.mapM g := by
  intro l
  induction l with
  | nil => intro _; rfl
  | cons x xs ih =>
    intro h
    rw [List.mapM_cons, List.mapM_cons, h x (List.mem_cons_self x xs),
      ih (fun y hy => h y (List.mem_cons_of_mem x hy))]

/-- Removing a present element by filtering strictly shortens the list. -/
theorem length_filter_ne_lt {α : Type*} [DecidableEq α] {l : List α} {a : α}
    (h : a ∈ l) :
    (l.filter (fun x => x ≠ a)).length < l.length := by
  induction l with
  | nil => cases h
  | cons b m ih =>
    rw [List.filter_cons]
    by_cases hb : b = a
    · rw [if_neg (by simp [hb])]
      calc (m.filter (fun x => x ≠ a)).length ≤ m.length := List.length_filter_le _ _
        _ < (b :: m).length := by simp
    · rw [if_pos (by simp [hb])]
      have hm : a ∈ m := by
        rcases List.mem_cons.mp h with h1 | h1
        · exact absurd h1.symm hb
        · exact h1
      simpa using ih hm

/-- Any fuel beyond the number of remaining attributes computes the same tree:
each recursion level of `_make_tree` removes the chosen attribute from the list,
so the recursion depth is bounded by the attribute count. -/
theorem makeTreeF_fuel_eq (tgt : String) :
    ∀ (n : ℕ) (data : List Record) (attrs : List String) (f f' : ℕ),
      attrs.length = n → attrs.length < f → attrs.length < f' →
      makeTreeF f data attrs tgt = makeTreeF f' data attrs tgt := by
  intro n
  induction n using Nat.strong_induction_on with
  | _ n ih =>
    intro data attrs f f' hn hf hf'
    obtain ⟨a, rfl⟩ : ∃ a, f = a + 1 := ⟨f - 1, by omega⟩
    obtain ⟨b, rfl⟩ : ∃ b, f' = b + 1 := ⟨f' - 1, by omega⟩
    simp only [makeTreeF]
    by_cases h1 : data = [] ∨ attrs.length ≤ 1
    · rw [if_pos h1, if_pos h1]
    rw [if_neg h1, if_neg h1]
    by_cases h2 : (valuesOf data tgt).count ((valuesOf data tgt).headD Scalar.none)
        = (valuesOf data tgt).length
    · rw [if_pos h2, if_pos h2]
    rw [if_neg h2, if_neg h2]
    cases hch : chooseAttribute data attrs tgt with
    | none => rfl
    | some best =>
      have hbest := chooseAttribute_mem hch
      have hlt : (attrs.filter (fun x => x ≠ best)).length < attrs.length :=
        length_filter_ne_lt hbest.1
      have hmap : (getValues data best).mapM (fun v =>
          (makeTreeF a (getExamples data best v)
            (attrs.filter (fun x => x ≠ best)) tgt).map (fun st => (v, st)))
          = (getValues data best).mapM (fun v =>
          (makeTreeF b (getExamples data best v)
            (attrs.filter (fun x => x ≠ best)) tgt).map (fun st => (v, st))) := by
        apply mapM_option_congr
        intro v _
        rw [ih (attrs.filter (fun x => x ≠ best)).length (by omega)
          (getExamples data best v) (attrs.filter (fun x => x ≠ best)) a b rfl
          (by omega) (by omega)]
      exact congrArg (fun z => match z with
        | Option.none => Option.none
        | some kvs => some (Lit.dict [(Scalar.str best, Lit.dict kvs)])) hmap

/-- The builder never runs out of fuel: `makeTree` equals `makeTreeF` at any fuel
above the attribute count. -/
theorem makeTreeF_eq_makeTree {data : List Record} {attrs : List String} {tgt : String}
    {fuel : ℕ} (h : attrs.length < fuel) :
    makeTreeF fuel data attrs tgt = makeTree data attrs tgt :=
  makeTreeF_fuel_eq tgt attrs.length data attrs fuel (attrs.length + 1) rfl h
    (Nat.lt_succ_self _)

/-- Training on the empty dataset yields the Python `None` leaf: the majority vote
over zero records never updates `most_freq`. -/
theorem makeTree_nil (attrs : List String) (tgt : String) :
    makeTree [] attrs tgt = some (.scalar Scalar.none) := by
  simp [makeTree, makeTreeF, majorityValue]

/-! ## Classifier lemmas -/

/-- A key with no association is a key different from every stored key. -/
theorem lookup_none_iff_keys {v : Scalar} :
    ∀ {children : List (Scalar × Lit)},
      List.lookup v children = Option.none ↔ ∀ p ∈ children, p.1 ≠ v := by
  intro children
  induction children with
  | nil => simp
  | cons p rest ih =>
    obtain ⟨k, c⟩ := p
    by_cases hk : k = v
    · have hbeq : (v == k) = true := by simp [hk]
      refine iff_of_false (by simp [List.lookup, hbeq]) ?_
      intro hall
      exact hall (k, c) (List.mem_cons_self _ _) hk
    · have hbeq : (v == k) = false := beq_eq_false_iff_ne.mpr (Ne.symm hk)
      simp [List.lookup, hbeq, ih, hk]

/-- Scanning the children with a value that matches no key returns the sentinel. -/
theorem useLookup_not_found (r : Record) (v : Scalar) :
    ∀ {children : List (Scalar × Lit)},
      List.lookup v children = Option.none →
      useLookup r v children = some unknownLit := by
  intro children
  induction children with
  | nil => intro _; rw [useLookup]
  | cons p rest ih =>
    obtain ⟨k, c⟩ := p
    intro h
    rw [List.lookup] at h
    by_cases hk : k = v
    · have hbeq : (v == k) = true := by simp [hk]
      rw [hbeq] at h
      cases h
    · have hbeq : (v == k) = false := beq_eq_false_iff_ne.mpr (Ne.symm hk)
      rw [hbeq] at h
      rw [useLookup, if_neg hk]
      exact ih h

/-- Bound for the depth of a child inside an entry list. -/
theorem splitDepth_le_of_mem :
    ∀ {children : List (Scalar × Lit)} {k : Scalar} {c : Lit},
      (k, c) ∈ children → splitDepth c ≤ splitDepthEntries children := by
  intro children
  induction children with
  | nil => intro k c h; cases h
  | cons p rest ih =>
    intro k c h
    obtain ⟨k2, c2⟩ := p
    rcases List.mem_cons.mp h with h1 | h1
    · injection h1 with e1 e2
      subst e2
      rw [splitDepthEntries]
      exact le_max_left _ _
    · rw [splitDepthEntries]
      exact le_trans (ih h1) (le_max_right _ _)

/-- Classification terminates within depth-many descents: any fuel beyond the
dictionary depth of the tree lets the fuelled classifier finish with the value of
`use`. -/
theorem useF_eq_use : ∀ (fuel : ℕ) (r : Record) (t : Lit),
    splitDepth t < fuel → useF fuel r t = some (use r t) := by
  intro fuel
  induction fuel using Nat.strong_induction_on with
  | _ fuel ih =>
    intro r t hdep
    obtain ⟨g, rfl⟩ : ∃ g, fuel = g + 1 := ⟨fuel - 1, by omega⟩
    cases t with
    | scalar s =>
      cases s with
      | int i => simp only [useF]; rfl
      | str s => simp only [useF]; rfl
      | none => simp only [useF]; rfl
    | dict es =>
      cases es with
      | nil => simp only [useF]; rfl
      | cons p rest =>
        obtain ⟨k, inner⟩ := p
        cases k with
        | int i => simp only [useF]; rfl
        | none => simp only [useF]; rfl
        | str a =>
          simp only [useF]
          cases hl : List.lookup a r with
          | none => rw [use, hl]
          | some v =>
            cases inner with
            | scalar s =>
              cases s with
              | int i => rw [use, hl]
              | none => rw [use, hl]
              | str sv =>
                cases v with
                | int i => rw [use, hl]
                | none => rw [use, hl]
                | str vs => rw [use, hl]
            | dict children =>
              rw [use, hl]
              have hb : splitDepthEntries children < g := by
                have h1 : splitDepth (Lit.dict children)
                    ≤ splitDepthEntries ((Scalar.str a, Lit.dict children) :: rest) :=
                  splitDepth_le_of_mem (List.mem_cons_self _ _)
                have e1 : splitDepth (Lit.dict children)
                    = 1 + splitDepthEntries children := rfl
                have e2 : splitDepth (Lit.dict ((Scalar.str a, Lit.dict children) :: rest))
                    = 1 + splitDepthEntries ((Scalar.str a, Lit.dict children) :: rest) := rfl
                rw [e2] at hdep
                rw [e1] at h1
                omega
              have aux : ∀ (children2 : List (Scalar × Lit)) (v2 : Scalar),
                  splitDepthEntries children2 < g →
                  useLookupF g r v2 children2 = some (useLookup r v2 children2) := by
                intro children2
                induction children2 with
                | nil => intro v2 _; rw [useLookupF, useLookup]
                | cons q qrest ihq =>
                  intro v2 hq
                  obtain ⟨k2, c2⟩ := q
                  rw [splitDepthEntries] at hq
                  by_cases hk2 : k2 = v2
                  · rw [useLookupF, useLookup, if_pos hk2, if_pos hk2]
                    exact ih g (by omega) r c2 (by omega)
                  · rw [useLookupF, useLookup, if_neg hk2, if_neg hk2]
                    exact ihq v2 (by omega)
              exact aux children v hb

/-! ## Round trip of the serializer text

The lemmas below show `ast.literal_eval` (modelled by `parseLitF`) undoes `repr`
(modelled by `reprLit`) on byte-clean literal structures, character by character. -/

/-- The continuation after a printed literal must not begin with a digit (else the
digit run of an integer literal would absorb it); every delimiter the printer emits
satisfies this. -/
def noDigitHead : List Char → Prop
  | [] => True
  | c :: _ => isDigitC c = false

/-- Little-endian digit list of `natDigitsRev` evaluates back to the number. -/
theorem natDigitsRev_val : ∀ (fuel n : ℕ), n ≤ fuel →
    (natDigitsRev fuel n).foldr (fun d acc => d + 10 * acc) 0 = n := by
  intro fuel
  induction fuel with
  | zero => intro n h; interval_cases n; rfl
  | succ f ih =>
    intro n h
    rw [natDigitsRev]
    by_cases h0 : n = 0
    · simp [h0]
    · rw [if_neg h0]
      simp only [List.foldr_cons]
      have : n / 10 ≤ f := by omega
      rw [ih (n / 10) this]
      omega

/-- Digits produced by `natDigitsRev` are below ten. -/
theorem natDigitsRev_lt_ten : ∀ (fuel n : ℕ), ∀ d ∈ natDigitsRev fuel n, d < 10 := by
  intro fuel
  induction fuel with
  | zero => intro n d h; cases h
  | succ f ih =>
    intro n d h
    rw [natDigitsRev] at h
    by_cases h0 : n = 0
    · rw [if_pos h0] at h; cases h
    · rw [if_neg h0] at h
      rcases List.mem_cons.mp h with rfl | h1
      · omega
      · exact ih _ d h1

/-- Folding the decimal characters of a digit list from the most significant side
recovers the little-endian value. -/
theorem foldl_digits_val : ∀ (ds : List ℕ), (∀ d ∈ ds, d < 10) →
    ((ds.reverse.map Nat.digitChar).foldl (fun acc c => 10 * acc + (c.toNat - 48)) 0)
      = ds.foldr (fun d acc => d + 10 * acc) 0 := by
  have hchar : ∀ d : ℕ, d < 10 → (Nat.digitChar d).toNat - 48 = d := by decide
  intro ds
  induction ds with
  | nil => intro _; rfl
  | cons d rest ih =>
    intro h
    rw [List.reverse_cons, List.map_append, List.foldl_append]
    rw [ih (fun x hx => h x (List.mem_cons_of_mem d hx))]
    simp only [List.map_cons, List.map_nil, List.foldl_cons, List.foldl_nil,
      List.foldr_cons]
    rw [hchar d (h d (List.mem_cons_self d rest))]
    ring

/-- All characters printed for a natural number are decimal digits. -/
theorem natChars_digits (n : ℕ) : ∀ c ∈ natChars n, isDigitC c = true := by
  have hchar : ∀ d : ℕ, d < 10 → isDigitC (Nat.digitChar d) = true := by decide
  intro c hc
  rw [natChars] at hc
  by_cases h0 : n = 0
  · rw [if_pos h0] at hc
    rcases List.mem_cons.mp hc with rfl | h1
    · rfl
    · cases h1
  · rw [if_neg h0] at hc
    obtain ⟨d, hd, rfl⟩ := List.mem_map.mp hc
    exact hchar d (natDigitsRev_lt_ten n n d (List.mem_reverse.mp hd))

/-- The printed characters of a natural number are nonempty. -/
theorem natChars_ne_nil (n : ℕ) : natChars n ≠ [] := by
  rw [natChars]
  by_cases h0 : n = 0
  · rw [if_pos h0]; simp
  · rw [if_neg h0]
    intro hcon
    have hlen := congrArg List.length hcon
    simp only [List.length_map, List.length_reverse, List.length_nil] at hlen
    have : natDigitsRev n n ≠ [] := by
      cases hn : n with
      | zero => exact absurd hn h0
      | succ m =>
        rw [natDigitsRev]
        rw [if_neg (by omega)]
        simp
    exact this (List.length_eq_zero.mp hlen)

/-- Take-while over a run of satisfying characters followed by a failing head. -/
theorem takeWhile_append_all {p : Char → Bool} :
    ∀ {xs rest : List Char}, (∀ x ∈ xs, p x = true) →
      (rest = [] ∨ ∃ c cs, rest = c :: cs ∧ p c = false) →
      (xs ++ rest).takeWhile p = xs := by
  intro xs
  induction xs with
  | nil =>
    intro rest _ hr
    rcases hr with rfl | ⟨c, cs, rfl, hc⟩
    · rfl
    · simp [List.takeWhile_cons, hc]
  | cons x xs ih =>
    intro rest hall hr
    simp only [List.cons_append, List.takeWhile_cons,
      hall x (List.mem_cons_self x xs), if_true]
    rw [ih (fun y hy => hall y (List.mem_cons_of_mem x hy)) hr]

/-- Parsing the maximal digit run of a printed natural number followed by a
non-digit continuation yields the number back. -/
theorem parseDigits_natChars (n : ℕ) (rest : List Char) (hrest : noDigitHead rest) :
    parseDigits (natChars n ++ rest) = some (n, rest) := by
  have hr2 : rest = [] ∨ ∃ c cs, rest = c :: cs ∧ isDigitC c = false := by
    cases rest with
    | nil => exact Or.inl rfl
    | cons c cs => exact Or.inr ⟨c, cs, rfl, hrest⟩
  have htake : (natChars n ++ rest).takeWhile isDigitC = natChars n :=
    takeWhile_append_all (natChars_digits n) hr2
  rw [parseDigits]
  simp only [htake]
  rw [if_neg (by simp [natChars_ne_nil n])]
  rw [List.drop_left]
  have hval : (natChars n).foldl (fun acc c => 10 * acc + (c.toNat - 48)) 0 = n := by
    rw [natChars]
    by_cases h0 : n = 0
    · rw [if_pos h0]; simp [h0, isDigitC]
    · rw [if_neg h0]
      rw [foldl_digits_val (natDigitsRev n n) (natDigitsRev_lt_ten n n)]
      exact natDigitsRev_val n n (le_refl n)
  rw [hval]

/-- Unescaping undoes escaping: parsing the escaped body of a byte-clean string
up to the closing quote recovers the characters exactly. -/
theorem parseStrBody_round (q : Char) (hq : q = squote ∨ q = dquote) :
    ∀ (s rest : List Char), (∀ c ∈ s, c.toNat < 256) →
      parseStrBody q (s.foldr (fun c acc => reprStrChar q c ++ acc) (q :: rest))
        = some (s, rest) := by
  have hbq : ¬ (bslash = q) := by rcases hq with rfl | rfl <;> decide
  have hqx : ¬ (q = 'x') := by rcases hq with rfl | rfl <;> decide
  have hqn : ¬ (q = 'n') := by rcases hq with rfl | rfl <;> decide
  have hqr : ¬ (q = 'r') := by rcases hq with rfl | rfl <;> decide
  have hqt : ¬ (q = 't') := by rcases hq with rfl | rfl <;> decide
  have hqmem : q = squote ∨ q = dquote ∨ q = bslash := by
    rcases hq with rfl | rfl
    · exact Or.inl rfl
    · exact Or.inr (Or.inl rfl)
  have hhexc : ∀ d : ℕ, d < 16 → isHexC (Nat.digitChar d) = true := by decide
  have hhexv : ∀ d : ℕ, d < 16 → hexVal (Nat.digitChar d) = d := by decide
  intro s
  induction s with
  | nil =>
    intro rest _
    rw [List.foldr_nil, parseStrBody.eq_def]
    simp only []
    rw [if_pos trivial]
  | cons c cs ih =>
    intro rest hbyte
    have hc256 : c.toNat < 256 := hbyte c (List.mem_cons_self c cs)
    have ihcs := ih rest (fun x hx => hbyte x (List.mem_cons_of_mem c hx))
    rw [List.foldr_cons, reprStrChar]
    by_cases h1 : c = q ∨ c = bslash
    · rw [if_pos h1]
      simp only [List.cons_append, List.nil_append]
      have hcx : ¬ (c = 'x') := by
        rcases h1 with rfl | rfl
        · exact hqx
        · decide
      have hcn : ¬ (c = 'n') := by
        rcases h1 with rfl | rfl
        · exact hqn
        · decide
      have hcr : ¬ (c = 'r') := by
        rcases h1 with rfl | rfl
        · exact hqr
        · decide
      have hct : ¬ (c = 't') := by
        rcases h1 with rfl | rfl
        · exact hqt
        · decide
      have hmem : c = squote ∨ c = dquote ∨ c = bslash := by
        rcases h1 with rfl | rfl
        · exact hqmem
        · exact Or.inr (Or.inr rfl)
      rw [parseStrBody.eq_def]
      simp only []
      rw [if_neg hbq, if_pos (by decide), if_neg hcx, if_neg hcn, if_neg hcr,
        if_neg hct, if_pos hmem, ihcs]
      rfl
    rw [if_neg h1]
    have hcq : ¬ (c = q) := fun h => h1 (Or.inl h)
    have hcb : ¬ (c = bslash) := fun h => h1 (Or.inr h)
    by_cases h2 : c = nlChar
    · rw [if_pos h2]
      simp only [List.cons_append, List.nil_append]
      rw [parseStrBody.eq_def]
      simp only []
      rw [if_neg hbq, if_pos (by decide), if_neg (by decide : ¬ ('n' = 'x')),
        if_pos trivial, ihcs]
      rw [h2]
      rfl
    rw [if_neg h2]
    by_cases h3 : c = crChar
    · rw [if_pos h3]
      simp only [List.cons_append, List.nil_append]
      rw [parseStrBody.eq_def]
      simp only []
      rw [if_neg hbq, if_pos (by decide), if_neg (by decide : ¬ ('r' = 'x')),
        if_neg (by decide : ¬ ('r' = 'n')), if_pos trivial, ihcs]
      rw [h3]
      rfl
    rw [if_neg h3]
    by_cases h4 : c = tabChar
    · rw [if_pos h4]
      simp only [List.cons_append, List.nil_append]
      rw [parseStrBody.eq_def]
      simp only []
      rw [if_neg hbq, if_pos (by decide), if_neg (by decide : ¬ ('t' = 'x')),
        if_neg (by decide : ¬ ('t' = 'n')), if_neg (by decide : ¬ ('t' = 'r')),
        if_pos trivial, ihcs]
      rw [h4]
      rfl
    rw [if_neg h4]
    by_cases h5 : c.toNat < 32 ∨ 127 ≤ c.toNat
    · rw [if_pos h5]
      simp only [List.cons_append, List.nil_append]
      have hd1 : c.toNat / 16 % 16 < 16 := Nat.mod_lt _ (by norm_num)
      have hd2 : c.toNat % 16 < 16 := Nat.mod_lt _ (by norm_num)
      rw [parseStrBody.eq_def]
      simp only []
      rw [if_neg hbq, if_pos (by decide), if_pos trivial,
        if_pos (by rw [hhexc _ hd1, hhexc _ hd2]; rfl), ihcs]
      have hval : 16 * hexVal (Nat.digitChar (c.toNat / 16 % 16))
          + hexVal (Nat.digitChar (c.toNat % 16)) = c.toNat := by
        rw [hhexv _ hd1, hhexv _ hd2]
        omega
      rw [hval, Char.ofNat_toNat]
      rfl
    · rw [if_neg h5]
      simp only [List.cons_append, List.nil_append]
      rw [parseStrBody.eq_def]
      simp only []
      rw [if_neg hcq, if_neg hcb, ihcs]
      rfl

/-- Appending after a fold of emitted character groups merges into the fold base. -/
theorem foldr_append_init (f : Char → List Char) :
    ∀ (s : List Char) (init tail : List Char),
      (s.foldr (fun c acc => f c ++ acc) init) ++ tail
        = s.foldr (fun c acc => f c ++ acc) (init ++ tail) := by
  intro s
  induction s with
  | nil => intro init tail; rfl
  | cons c cs ih =>
    intro init tail
    rw [List.foldr_cons, List.foldr_cons, List.append_assoc, ih]

/-- A digit character is not one of the scalar-start delimiters. -/
theorem isDigitC_not_delims {c : Char} (h : isDigitC c = true) :
    ¬ (c = squote) ∧ ¬ (c = dquote) ∧ ¬ (c = 'N') ∧ ¬ (c = '-') := by
  refine ⟨?_, ?_, ?_, ?_⟩ <;>
    · intro hc
      rw [hc] at h
      exact absurd h (by decide)

/-- The chosen quote is one of the two quote characters. -/
theorem quoteFor_cases (s : String) : quoteFor s = squote ∨ quoteFor s = dquote := by
  rw [quoteFor]
  split
  · exact Or.inr rfl
  · exact Or.inl rfl

/-- Parsing a printed scalar followed by a digit-free continuation recovers the
scalar. -/
theorem parseScalar_round (sc : Scalar) (rest : List Char)
    (hgood : goodScalar sc = true) (hrest : noDigitHead rest) :
    parseScalar (reprScalar sc ++ rest) = some (sc, rest) := by
  cases sc with
  | none =>
    rw [reprScalar]
    simp only [List.cons_append, List.nil_append]
    rw [parseScalar.eq_def]
    simp only []
    rw [if_neg (by decide), if_pos trivial]
  | int i =>
    rw [reprScalar, intChars]
    by_cases hneg : i < 0
    · rw [if_pos hneg]
      simp only [List.cons_append]
      rw [parseScalar.eq_def]
      simp only []
      rw [if_neg (by decide), if_neg (by decide), if_pos trivial,
        parseDigits_natChars i.natAbs rest hrest]
      show some (Scalar.int (-(i.natAbs : Int)), rest) = some (Scalar.int i, rest)
      have : -(i.natAbs : Int) = i := by omega
      rw [this]
    · rw [if_neg hneg]
      obtain ⟨d, ds, hnc⟩ : ∃ d ds, natChars i.natAbs = d :: ds := by
        cases hx : natChars i.natAbs with
        | nil => exact absurd hx (natChars_ne_nil _)
        | cons d ds => exact ⟨d, ds, rfl⟩
      have hd : isDigitC d = true := by
        apply natChars_digits i.natAbs
        rw [hnc]
        exact List.mem_cons_self d ds
      obtain ⟨hd1, hd2, hd3, hd4⟩ := isDigitC_not_delims hd
      rw [hnc]
      simp only [List.cons_append]
      rw [parseScalar.eq_def]
      simp only []
      rw [if_neg (by simp [hd1, hd2]), if_neg hd3, if_neg hd4, if_pos hd]
      have hback : d :: (ds ++ rest) = natChars i.natAbs ++ rest := by
        rw [hnc]
        rfl
      rw [hback, parseDigits_natChars i.natAbs rest hrest]
      show some (Scalar.int ((i.natAbs : Int)), rest) = some (Scalar.int i, rest)
      have : (i.natAbs : Int) = i := by omega
      rw [this]
  | str s =>
    rw [reprScalar]
    simp only [List.cons_append]
    rw [foldr_append_init]
    simp only [List.singleton_append]
    rw [parseScalar.eq_def]
    simp only []
    rw [if_pos (quoteFor_cases s)]
    have hbyte : ∀ c ∈ s.data, c.toNat < 256 := by
      rw [goodScalar] at hgood
      intro c hc
      have := List.all_eq_true.mp hgood c hc
      exact of_decide_eq_true this
    rw [parseStrBody_round (quoteFor s) (quoteFor_cases s) s.data rest hbyte]
    rfl

mutual

/-- Nesting fuel needed by `parseLitF` to read back a printed literal. -/
def needF : Lit → ℕ
  | .scalar _ => 1
  | .dict es => 1 + needEntries es

/-- Nesting fuel needed by `parseEntriesF` to read back a printed entry list. -/
def needEntries : List (Scalar × Lit) → ℕ
  | [] => 1
  | (_, v) :: rest => 1 + max (needF v) (needEntries rest)

end

/-- A digit character is not a brace. -/
theorem isDigitC_not_braces {c : Char} (h : isDigitC c = true) :
    ¬ (c = lbrace) ∧ ¬ (c = rbrace) := by
  refine ⟨?_, ?_⟩ <;>
    · intro hc
      rw [hc] at h
      exact absurd h (by decide)

/-- Every printed scalar starts with a character that is not a brace. -/
theorem reprScalar_head (sc : Scalar) :
    ∃ d ds, reprScalar sc = d :: ds ∧ ¬ (d = lbrace) ∧ ¬ (d = rbrace) := by
  cases sc with
  | none => exact ⟨'N', ['o', 'n', 'e'], rfl, by decide, by decide⟩
  | str s =>
    refine ⟨quoteFor s, _, rfl, ?_, ?_⟩ <;>
      · rcases quoteFor_cases s with hc | hc <;> rw [hc] <;> decide
  | int i =>
    rw [reprScalar, intChars]
    by_cases hneg : i < 0
    · exact ⟨'-', _, by rw [if_pos hneg], by decide, by decide⟩
    · rw [if_neg hneg]
      obtain ⟨d, ds, hnc⟩ : ∃ d ds, natChars i.natAbs = d :: ds := by
        cases hx : natChars i.natAbs with
        | nil => exact absurd hx (natChars_ne_nil _)
        | cons d ds => exact ⟨d, ds, rfl⟩
      have hd : isDigitC d = true := by
        apply natChars_digits i.natAbs
        rw [hnc]
        exact List.mem_cons_self d ds
      obtain ⟨hb1, hb2⟩ := isDigitC_not_braces hd
      exact ⟨d, ds, hnc, hb1, hb2⟩

/-- The combined round trip of the literal parser against the printer: parsing a
printed byte-clean literal (with a digit-free continuation) recovers it, and the
same for a nonempty printed entry list closed by the right brace. -/
theorem parseLitF_round_aux : ∀ fuel : ℕ,
    (∀ (l : Lit) (rest : List Char), goodLit l = true → noDigitHead rest →
      needF l ≤ fuel → parseLitF fuel (reprLit l ++ rest) = some (l, rest))
    ∧ (∀ (es : List (Scalar × Lit)) (rest : List Char), es ≠ [] →
        goodEntries es = true → needEntries es ≤ fuel →
        parseEntriesF fuel (reprEntries es ++ rbrace :: rest) = some (es, rest)) := by
  intro fuel
  induction fuel using Nat.strong_induction_on with
  | _ fuel ih =>
    constructor
    · intro l rest hgood hrest hneed
      have hpos : 1 ≤ needF l := by
        cases l with
        | scalar sc => rw [needF]
        | dict es => rw [needF]; omega
      obtain ⟨g, rfl⟩ : ∃ g, fuel = g + 1 := ⟨fuel - 1, by omega⟩
      cases l with
      | scalar sc =>
        obtain ⟨d, ds, hsc, hdl, _⟩ := reprScalar_head sc
        rw [reprLit, hsc]
        simp only [List.cons_append]
        rw [parseLitF.eq_def]
        simp only []
        rw [if_neg hdl]
        have hback : d :: (ds ++ rest) = reprScalar sc ++ rest := by
          rw [hsc]
          rfl
        rw [hback, parseScalar_round sc rest (by rw [goodLit] at hgood; exact hgood) hrest]
        rfl
      | dict es =>
        rw [reprLit]
        simp only [List.cons_append, List.append_assoc, List.singleton_append,
          List.nil_append]
        rw [parseLitF.eq_def]
        simp only []
        rw [if_pos trivial]
        cases es with
        | nil =>
          rw [reprEntries]
          simp only [List.nil_append]
          rw [if_pos trivial]
        | cons e tail =>
          obtain ⟨k, v⟩ := e
          have hne : reprEntries ((k, v) :: tail) ++ rbrace :: rest
              = reprScalar k ++ (':' :: ' ' :: reprLit v ++
                  ((if tail.isEmpty then [] else [',', ' ']) ++
                    (reprEntries tail ++ rbrace :: rest))) := by
            rw [reprEntries]
            simp only [List.append_assoc, List.cons_append]
          obtain ⟨d, ds, hsc, hdl, hdr⟩ := reprScalar_head k
          have hshape : ∃ zs, reprEntries ((k, v) :: tail) ++ rbrace :: rest
              = d :: zs ∧ d :: zs = reprEntries ((k, v) :: tail) ++ rbrace :: rest := by
            rw [hne, hsc]
            exact ⟨_, rfl, rfl⟩
          obtain ⟨zs, hz, _⟩ := hshape
          rw [hz]
          simp only []
          rw [if_neg hdr]
          rw [← hz]
          have h2 := (ih g (by omega)).2 ((k, v) :: tail) rest (by simp)
            hgood (by rw [needF] at hneed; omega)
          rw [h2]
          rfl
    · intro es rest hes hgood hneed
      obtain ⟨g, rfl⟩ : ∃ g, fuel = g + 1 := ⟨fuel - 1, by
        cases es with
        | nil => exact absurd rfl hes
        | cons e tail =>
          obtain ⟨k, v⟩ := e
          rw [needEntries] at hneed
          omega⟩
      cases es with
      | nil => exact absurd rfl hes
      | cons e tail =>
        obtain ⟨k, v⟩ := e
        rw [needEntries] at hneed
        have hgk : goodScalar k = true ∧ goodLit v = true ∧ goodEntries tail = true := by
          rw [goodEntries] at hgood
          simp only [Bool.and_eq_true] at hgood
          exact ⟨hgood.1.1, hgood.1.2, hgood.2⟩
        rw [reprEntries]
        simp only [List.append_assoc, List.cons_append]
        rw [parseEntriesF.eq_def]
        simp only []
        rw [parseScalar_round k _ hgk.1 (by rw [noDigitHead]; decide)]
        simp only []
        rw [if_pos ⟨trivial, trivial⟩]
        have hrest2 : noDigitHead ((if tail.isEmpty then [] else [',', ' ']) ++
            (reprEntries tail ++ rbrace :: rest)) := by
          cases tail with
          | nil =>
            rw [List.isEmpty_nil, if_pos rfl, reprEntries]
            simp only [List.nil_append]
            show isDigitC rbrace = false
            decide
          | cons t ts =>
            rw [List.isEmpty_cons, if_neg (by decide)]
            show isDigitC ',' = false
            decide
        have h1 := (ih g (by omega)).1 v
          ((if tail.isEmpty then [] else [',', ' ']) ++
            (reprEntries tail ++ rbrace :: rest)) hgk.2.1 hrest2 (by omega)
        rw [h1]
        simp only []
        cases tail with
        | nil =>
          rw [List.isEmpty_nil, if_pos rfl, reprEntries]
          simp only [List.nil_append]
          rw [if_pos trivial]
        | cons t ts =>
          rw [List.isEmpty_cons, if_neg (by decide)]
          simp only [List.cons_append, List.nil_append]
          rw [if_neg (by decide)]
          rw [if_pos ⟨trivial, trivial⟩]
          have h2 := (ih g (by omega)).2 (t :: ts) rest (by simp) hgk.2.2 (by omega)
          rw [h2]
          rfl

mutual

/-- The parser fuel needed for a literal is at most the printed length. -/
theorem needF_le_length : ∀ l : Lit, needF l ≤ (reprLit l).length
  | .scalar sc => by
    rw [needF, reprLit]
    obtain ⟨d, ds, hsc, _, _⟩ := reprScalar_head sc
    rw [hsc]
    simp
  | .dict es => by
    rw [needF, reprLit]
    have h := needEntries_le_length es
    simp only [List.length_cons, List.length_append, List.length_singleton]
    omega

/-- The parser fuel needed for an entry list is at most its printed length
plus one. -/
theorem needEntries_le_length : ∀ es : List (Scalar × Lit),
    needEntries es ≤ (reprEntries es).length + 1
  | [] => by rw [needEntries, reprEntries]; simp
  | (k, v) :: tail => by
    rw [needEntries, reprEntries]
    have hv := needF_le_length v
    have ht := needEntries_le_length tail
    obtain ⟨d, ds, hsc, _, _⟩ := reprScalar_head k
    rw [hsc]
    simp only [List.length_append, List.length_cons]
    have hm : needF v ⊔ needEntries tail
        ≤ (reprLit v).length + ((reprEntries tail).length + 1) :=
      max_le (by omega) (by omega)
    omega

end

/-- Full-text round trip: parsing the printed text of a byte-clean literal
recovers the literal. -/
theorem parseLit_reprLit {l : Lit} (hgood : goodLit l = true) :
    parseLit (String.mk (reprLit l)) = some l := by
  rw [parseLit]
  have hfuel : needF l ≤ (String.mk (reprLit l)).length + 1 := by
    have := needF_le_length l
    have hlen : (String.mk (reprLit l)).length = (reprLit l).length := rfl
    omega
  have h := (parseLitF_round_aux ((String.mk (reprLit l)).length + 1)).1 l []
    hgood trivial hfuel
  rw [List.append_nil] at h
  rw [show (String.mk (reprLit l)).data = reprLit l from rfl, h]

/-- Importing the export of any byte-clean tree that is not a bare string leaf
recovers the tree (a bare string leaf is exported unquoted by `str()` and cannot
be re-parsed; that case is claim C1's counterexample). -/
theorem importAi_exportAi {t : Lit} (hgood : goodLit t = true)
    (hnotstr : ∀ s, t ≠ .scalar (.str s)) :
    importAi (exportAi t) = some t := by
  rw [importAi]
  have hexp : exportAi t = String.mk (reprLit t) := by
    cases t with
    | dict es => rfl
    | scalar sc =>
      cases sc with
      | str s => exact absurd rfl (hnotstr s)
      | int i => rfl
      | none => rfl
  rw [hexp, parseLit_reprLit hgood]

/-! ## Claim theorems -/

/-- Training data for the zero-gain and permutation counterexamples: one
attribute value shared by both records, two distinct labels. -/
def dataC3 : List Record :=
  [[("a", .int 0), ("t", .str "x")], [("a", .int 0), ("t", .str "y")]]

/-- Training data for the permutation counterexample: one shared attribute value
and tied integer labels 1 and 9, which collide in CPython 2's 8-slot set table. -/
def dataC8 : List Record :=
  [[("a", .int 0), ("t", .int 1)], [("a", .int 0), ("t", .int 9)]]

/-- The same two records in the opposite order. -/
def dataC8rev : List Record :=
  [[("a", .int 0), ("t", .int 9)], [("a", .int 0), ("t", .int 1)]]

/-- Probe into the single-split single-value tree shape, used to separate two
trees without a decidable equality on `Lit`. -/
def leafProbe : Option Lit → Scalar
  | some (.dict [(_, .dict [(_, .scalar s)])]) => s
  | _ => Scalar.none

/-- Claim C1, as stated, is false: a pure dataset makes the Builder return a bare
string leaf, `export` writes it via `str()` without quotes, and
`ast.literal_eval` then fails, so `import(export(T))` is an exception rather
than `T`. -/
theorem C1_counterexample :
    makeTree [[("a", Scalar.int 0), ("t", Scalar.str "yes")]] ["a", "t"] "t"
        = some (Lit.scalar (Scalar.str "yes"))
    ∧ exportAi (Lit.scalar (Scalar.str "yes")) = "yes"
    ∧ importAi (exportAi (Lit.scalar (Scalar.str "yes"))) = Option.none :=
  ⟨rfl, rfl, rfl⟩

/-- Claim C1, amended: the round trip `import(export(T)) = T` holds for every
byte-clean tree the engine can produce except a bare string leaf (whose quoteless
`str()` export cannot be re-parsed, per `C1_counterexample`). -/
theorem C1_export_import_roundtrip (t : Lit) (hgood : goodLit t = true)
    (hnotstr : ∀ s, t ≠ .scalar (.str s)) :
    importAi (exportAi t) = some t :=
  importAi_exportAi hgood hnotstr

/-- Witness for C1 at the XOR tree. -/
theorem C1_export_import_roundtrip_witness :
    goodLit xorTree = true ∧ importAi (exportAi xorTree) = some xorTree :=
  ⟨rfl, C1_export_import_roundtrip xorTree rfl (fun _ h => Lit.noConfusion h)⟩

/-- Claim C2: training on the XOR records with attributes `["a","b","xor"]` and
target `"xor"` produces a tree that classifies all four records correctly. -/
theorem C2_xor_scenario :
    makeTree xorData xorAttrs "xor" = some xorTree
    ∧ use [("a", .int 0), ("b", .int 1)] xorTree = some (.scalar (.str "yes"))
    ∧ use [("a", .int 1), ("b", .int 0)] xorTree = some (.scalar (.str "yes"))
    ∧ use [("a", .int 1), ("b", .int 1)] xorTree = some (.scalar (.str "no"))
    ∧ use [("a", .int 0), ("b", .int 0)] xorTree = some (.scalar (.str "no")) :=
  ⟨rfl, rfl, rfl, rfl, rfl⟩

/-- Claim C3, as stated, is false: on a dataset where the only candidate
attribute has information gain exactly 0.0, best-attribute selection does not
remain `None` — the comparison `gain >= best_gain` succeeds at gain 0.0, the
candidate is selected, and the Builder constructs a Split node rather than a
Leaf. -/
theorem C3_counterexample :
    gain dataC3 "a" "t" = 0
    ∧ chooseAttribute dataC3 ["a", "t"] "t" = some "a"
    ∧ makeTree dataC3 ["a", "t"] "t"
        = some (.dict [(.str "a", .dict [(.int 0, .scalar (.str "y"))])]) :=
  ⟨(gain_eq_zero_iff (by decide) "a" "t").mpr (by decide), rfl, rfl⟩

/-- Claim C3, amended: when every non-target candidate has zero information
gain, the `>=` comparison selects each of them in turn, so the selection returns
the last-listed non-target candidate; it returns `None` only when no non-target
candidate exists at all. -/
theorem C3_zero_gain_selects_last (data : List Record) (attrs : List String)
    (tgt : String) (hzero : ∀ a ∈ attrs, a ≠ tgt → gain data a tgt = 0) :
    chooseAttribute data attrs tgt = (attrs.filter (fun a => a ≠ tgt)).getLast? := by
  rcases eq_or_ne data [] with rfl | hne
  · rw [chooseAttribute, foldl_chooseStep_all_zero [] tgt attrs (1, 1) Option.none rfl
      (fun a _ _ => by rw [gainPair_nil])]
    exact Option.or_none
  · rw [chooseAttribute, foldl_chooseStep_all_zero data tgt attrs (1, 1) Option.none rfl
      (fun a ha hat => (gain_eq_zero_iff hne a tgt).mp (hzero a ha hat))]
    exact Option.or_none

/-- Witness for C3 on `dataC3`: the hypothesis holds (the one candidate has zero
gain) and the selection is the last non-target attribute. -/
theorem C3_zero_gain_selects_last_witness :
    (∀ a ∈ (["a", "t"] : List String), a ≠ "t" → gain dataC3 a "t" = 0)
    ∧ chooseAttribute dataC3 ["a", "t"] "t"
        = ((["a", "t"] : List String).filter (fun a => a ≠ "t")).getLast? := by
  have hzero : ∀ a ∈ (["a", "t"] : List String), a ≠ "t" → gain dataC3 a "t" = 0 := by
    intro a ha hat
    rcases List.mem_cons.mp ha with rfl | ha2
    · exact (gain_eq_zero_iff (by decide) "a" "t").mpr (by decide)
    · rcases List.mem_cons.mp ha2 with rfl | ha3
      · exact absurd rfl hat
      · cases ha3
  exact ⟨hzero, C3_zero_gain_selects_last dataC3 ["a", "t"] "t" hzero⟩

/-- Claim C4: with two non-target candidates of equal information gain, the
`>=` comparison lets the later-listed one replace the earlier, so the later one
is chosen. -/
theorem C4_tie_break_later_wins (data : List Record) (a b tgt : String)
    (ha : a ≠ tgt) (hb : b ≠ tgt) (heq : gain data a tgt = gain data b tgt) :
    chooseAttribute data [a, b] tgt = some b := by
  have h1 : chooseStep data tgt ((1, 1), Option.none) a = (gainPair data a tgt, some a) := by
    rw [chooseStep]
    exact if_pos ⟨by simpa using gainPair_snd_le_fst data a tgt, ha⟩
  have h2 : chooseStep data tgt (gainPair data a tgt, some a) b
      = (gainPair data b tgt, some b) := by
    rw [chooseStep]
    refine if_pos ⟨?_, hb⟩
    rcases eq_or_ne data [] with rfl | hne
    · simp
    · exact le_of_eq ((gain_eq_gain_iff hne a b tgt).mp heq)
  rw [chooseAttribute, List.foldl_cons, h1, List.foldl_cons, h2, List.foldl_nil]

/-- Witness for C4 on the XOR data: attributes `a` and `b` have equal gain there
and `b`, the later-listed, is chosen (it is indeed the root split of `xorTree`). -/
theorem C4_tie_break_later_wins_witness :
    ("a" : String) ≠ "xor" ∧ ("b" : String) ≠ "xor"
    ∧ gain xorData "a" "xor" = gain xorData "b" "xor"
    ∧ chooseAttribute xorData ["a", "b"] "xor" = some "b" := by
  have heq : gain xorData "a" "xor" = gain xorData "b" "xor" :=
    (gain_eq_gain_iff (by decide) "a" "b" "xor").mpr (by decide)
  exact ⟨by decide, by decide, heq,
    C4_tie_break_later_wins xorData "a" "b" "xor" (by decide) (by decide) heq⟩

/-- Claim C5: on a nonempty dataset the information gain is nonnegative, and it
vanishes exactly when partitioning by the attribute does not reduce the target
entropy. -/
theorem C5_gain_nonneg_iff (data : List Record) (attr tgt : String) (h : data ≠ []) :
    0 ≤ gain data attr tgt
    ∧ (gain data attr tgt = 0 ↔
        ¬ subsetEntropy data attr tgt < entropy data tgt) := by
  have hle := subsetEntropy_le_entropy attr tgt h
  refine ⟨gain_nonneg attr tgt h, ?_, ?_⟩
  · intro h0 hlt
    rw [gain] at h0
    linarith
  · intro hnlt
    rw [gain]
    have := not_lt.mp hnlt
    linarith

/-- Witness for C5 at the XOR data and attribute `a`. -/
theorem C5_gain_nonneg_iff_witness :
    xorData ≠ []
    ∧ (0 ≤ gain xorData "a" "xor"
      ∧ (gain xorData "a" "xor" = 0 ↔
          ¬ subsetEntropy xorData "a" "xor" < entropy xorData "xor")) := by
  exact ⟨by decide, C5_gain_nonneg_iff xorData "a" "xor" (by decide)⟩

/-- Claim C6, as stated, is partly false: the classifier does return the
sentinel `"unknown"` without raising, but the sentinel is not distinct from
every real label — training on a dataset whose target labels include the string
`"unknown"` produces a tree whose honest leaf answer is the very sentinel, so
the caller cannot tell the two apart. -/
theorem C6_counterexample :
    makeTree [[("a", Scalar.int 0), ("t", Scalar.str "unknown")]] ["a", "t"] "t"
        = some (Lit.scalar (Scalar.str "unknown"))
    ∧ use [] (Lit.scalar (Scalar.str "unknown")) = some unknownLit
    ∧ unknownLit = Lit.scalar (Scalar.str "unknown") :=
  ⟨rfl, rfl, rfl⟩

/-- Claim C6, amended: on a split node the classifier never raises for a missing
attribute or an unseen attribute value — it returns the `"unknown"` string (which
is however an ordinary label value, see `C6_counterexample`). -/
theorem C6_unknown_sentinel (r : Record) (a : String) (inner : Lit)
    (children : List (Scalar × Lit)) (rest : List (Scalar × Lit)) :
    (r.lookup a = Option.none →
      use r (.dict ((Scalar.str a, inner) :: rest)) = some unknownLit)
    ∧ (∀ v, r.lookup a = some v → List.lookup v children = Option.none →
        use r (.dict ((Scalar.str a, Lit.dict children) :: rest)) = some unknownLit) := by
  constructor
  · intro h
    rw [use.eq_def]
    simp only []
    rw [h]
  · intro v hv hnone
    rw [use.eq_def]
    simp only []
    rw [hv]
    exact useLookup_not_found r v hnone

/-- Witness for C6: classifying the empty record against a split on `a`, and a
record whose value `5` for `a` is not among the children keys. -/
theorem C6_unknown_sentinel_witness :
    ([] : Record).lookup "a" = Option.none
    ∧ use [] (.dict [(Scalar.str "a", xorTree)]) = some unknownLit
    ∧ ([("a", Scalar.int 5)] : Record).lookup "a" = some (Scalar.int 5)
    ∧ List.lookup (Scalar.int 5) [(Scalar.int 0, xorTree)] = Option.none
    ∧ use [("a", Scalar.int 5)] (.dict [(Scalar.str "a", Lit.dict [(Scalar.int 0, xorTree)])])
        = some unknownLit := by
  refine ⟨rfl, ?_, rfl, rfl, ?_⟩
  · exact (C6_unknown_sentinel [] "a" xorTree [] []).1 rfl
  · exact (C6_unknown_sentinel [("a", Scalar.int 5)] "a" xorTree
      [(Scalar.int 0, xorTree)] []).2 (Scalar.int 5) rfl rfl

/-- Claim C7, as stated, is false: `import_ai` performs no shape validation at
all. The text of the literal `\x7b'a': 1\x7d`, which matches no production of the
tree grammar (its dictionary value is not a nested value dictionary), is parsed
and installed as the tree, and no `CorruptTreeError` (or any error) is raised. -/
theorem C7_counterexample :
    importAi (String.mk [lbrace, squote, 'a', squote, ':', ' ', '1', rbrace])
        = some (Lit.dict [(Scalar.str "a", Lit.scalar (Scalar.int 1))])
    ∧ isTreeShape (Lit.dict [(Scalar.str "a", Lit.scalar (Scalar.int 1))]) = false :=
  ⟨rfl, rfl⟩

/-- Claim C7, amended: `import_ai` installs whatever well-formed literal the text
denotes, including literals outside the tree grammar; it fails only when the text
is not a well-formed literal. -/
theorem C7_import_installs_any_literal (l : Lit) (hgood : goodLit l = true)
    ( _hshape : isTreeShape l = false) :
    importAi (String.mk (reprLit l)) = some l :=
  parseLit_reprLit hgood

/-- Witness for C7 at the non-grammar literal of `C7_counterexample`. -/
theorem C7_import_installs_any_literal_witness :
    goodLit (Lit.dict [(Scalar.str "a", Lit.scalar (Scalar.int 1))]) = true
    ∧ isTreeShape (Lit.dict [(Scalar.str "a", Lit.scalar (Scalar.int 1))]) = false
    ∧ importAi (String.mk (reprLit (Lit.dict [(Scalar.str "a", Lit.scalar (Scalar.int 1))])))
        = some (Lit.dict [(Scalar.str "a", Lit.scalar (Scalar.int 1))]) :=
  ⟨rfl, rfl, C7_import_installs_any_literal
    (Lit.dict [(Scalar.str "a", Lit.scalar (Scalar.int 1))]) rfl rfl⟩

/-- Claim C8, as stated, is false: reordering the training records can change the
produced tree. The majority vote iterates `list(set(lst))` with a strict `>`
tie-break, and CPython 2 iterates a set in hash-slot order: here the tied
integer labels 1 and 9 (with `hash(n) = n` for small ints) both map to slot 1
of the 8-slot small table, the second-inserted is displaced by the probe
`i = (5*i + 1 + perturb) mod 8` (perturb = 9 or 1) to slot 7, and so iterates
second. Set iteration therefore follows insertion order at this input — the
very order `List.dedup` keeps on these duplicate-free value lists — and the
leaf's majority vote, taken over the reversed matching-example sublist, returns
9 for one record order and 1 for the other: the two permutations build
different trees. -/
theorem C8_counterexample :
    dataC8.Perm dataC8rev
    ∧ makeTree dataC8 ["a", "t"] "t" ≠ makeTree dataC8rev ["a", "t"] "t" := by
  refine ⟨by decide, ?_⟩
  intro h
  have h1 : leafProbe (makeTree dataC8 ["a", "t"] "t") = Scalar.int 9 := rfl
  rw [h] at h1
  have h2 : leafProbe (makeTree dataC8rev ["a", "t"] "t") = Scalar.int 1 := rfl
  rw [h2] at h1
  exact absurd h1 (by decide)

/-- Claim C8, amended: the frequency-based statistics — entropy, information gain,
and the attribute chosen for a split — are invariant under permutation of the
training records; only the majority vote's tie-break can depend on record order,
through the insertion-order-dependent set iteration of hash-colliding labels. -/
theorem C8_stats_perm_invariant (data data' : List Record) (h : data.Perm data') :
    (∀ tgt, entropy data tgt = entropy data' tgt)
    ∧ (∀ attr tgt, gain data attr tgt = gain data' attr tgt)
    ∧ (∀ attrs tgt, chooseAttribute data attrs tgt = chooseAttribute data' attrs tgt) :=
  ⟨fun tgt => entropy_perm h tgt, fun attr tgt => gain_perm h attr tgt,
    fun attrs tgt => chooseAttribute_perm h attrs tgt⟩

/-- Witness for C8 on the permuted pair of `C8_counterexample`: the chosen split
attribute agrees even though the trees differ. -/
theorem C8_stats_perm_invariant_witness :
    dataC8rev.Perm dataC8
    ∧ chooseAttribute dataC8rev ["a", "t"] "t" = chooseAttribute dataC8 ["a", "t"] "t" :=
  ⟨by decide, (C8_stats_perm_invariant dataC8rev dataC8 (by decide)).2.2 ["a", "t"] "t"⟩

/-- Claim C9: both recursions are bounded — the Builder's recursion depth is
bounded by the number of attributes (any fuel beyond `attrs.length` computes the
same tree, i.e. the fixed point), and the classifier's descent is bounded by the
split depth of the tree (with that much fuel the fuelled classifier never runs
out). -/
theorem C9_recursion_bounded :
    (∀ (fuel : ℕ) (data : List Record) (attrs : List String) (tgt : String),
      attrs.length < fuel → makeTreeF fuel data attrs tgt = makeTree data attrs tgt)
    ∧ (∀ (fuel : ℕ) (r : Record) (t : Lit), splitDepth t < fuel →
        useF fuel r t = some (use r t)) :=
  ⟨fun _ _ _ _ h => makeTreeF_eq_makeTree h, useF_eq_use⟩

/-- Witness for C9 at the XOR data and tree. -/
theorem C9_recursion_bounded_witness :
    xorAttrs.length < 10
    ∧ makeTreeF 10 xorData xorAttrs "xor" = makeTree xorData xorAttrs "xor"
    ∧ splitDepth xorTree < 5
    ∧ useF 5 [] xorTree = some (use [] xorTree) :=
  ⟨by decide, C9_recursion_bounded.1 10 xorData xorAttrs "xor" (by decide),
    by decide, C9_recursion_bounded.2 5 [] xorTree (by decide)⟩

/-- Claim C10: the classifier recognises a Leaf solely by string type — a string
leaf is returned as the answer, while an int or `None` leaf falls through to
subscripting, which raises (`Option.none`); in particular the `None` tree produced
by training on an empty dataset makes every classification raise. -/
theorem C10_leaf_type_check :
    (∀ (r : Record) (k : Int), use r (.scalar (.int k)) = Option.none)
    ∧ (∀ r : Record, use r (.scalar Scalar.none) = Option.none)
    ∧ (∀ (attrs : List String) (tgt : String),
        makeTree [] attrs tgt = some (.scalar Scalar.none))
    ∧ (∀ (r : Record) (s : String), use r (.scalar (.str s)) = some (.scalar (.str s))) :=
  ⟨fun _ _ => rfl, fun _ => rfl, makeTree_nil, fun _ _ => rfl⟩
